import Mathlib

/-!
# mvfifo: a multi-value FIFO cache

Shallow embedding of `cache.go` and `option.go`.

* A Go `string` and a Go `[]byte` are finite byte sequences: `List UInt8`.
  A nil slice is the slice of length zero, `[]`.
* A `uint64` cursor is a `Nat`; the code only compares cursors.
* Go `int` (`size`, `maxSize`, `maxBytes`) is `Int`.
* A `*list.List` of `*item` is a `List item`, front first.
* The `map[string]*list.List` is an association list with one entry per key.
* A method that mutates the receiver maps the old `Cache` to the new one; a nil
  pointer dereference is the result `Except.error Fault.nilDeref`.
* The mutex and the item pool do not change the values computed and are left
  out.
-/

namespace mvfifo

/-- Byte sequences: the contents of a Go `string` or `[]byte`. -/
abbrev Bytes := List UInt8

/-- The optimistic default ceiling, `256 << 20`. -/
def DefaultMaxSizeBytes : Int := 256 * 2 ^ 20

/-- Fixed bookkeeping cost charged per item. -/
def overhead : Int := 16

/-- The stored unit: `type item struct { key string; cur uint64; val []byte }`. -/
structure item where
  key : Bytes
  cur : Nat
  val : Bytes
deriving DecidableEq, Repr

/-- Bytes charged for one item: `len(key) + len(val) + overhead`. -/
def footprint (key val : Bytes) : Int :=
  (key.length : Int) + (val.length : Int) + overhead

/-- Footprint of a stored item. -/
def item.footprint (i : item) : Int := mvfifo.footprint i.key i.val

/-- The per-key index `map[string]*list.List`. -/
abbrev Index := List (Bytes × List item)

/-- Map read `m[k]`: the list stored for `k`, `none` for the nil pointer of an
absent key. -/
def Index.get : Index → Bytes → Option (List item)
  | [], _ => none
  | (k', kl) :: m, k => if k' = k then some kl else Index.get m k

/-- Map write `m[k] = kl` (also the effect of mutating the list stored at `k`). -/
def Index.set : Index → Bytes → List item → Index
  | [], k, kl => [(k, kl)]
  | (k', kl') :: m, k, kl =>
    if k' = k then (k, kl) :: m else (k', kl') :: Index.set m k kl

/-- Map removal `delete(m, k)`. -/
def Index.delete : Index → Bytes → Index
  | [], _ => []
  | (k', kl') :: m, k =>
    if k' = k then Index.delete m k else (k', kl') :: Index.delete m k

/-- The cache: global chain `items`, ceiling `maxSize`, byte total `size` and
the per-key chains `vals`. -/
structure Cache where
  items : List item
  maxSize : Int
  size : Int
  vals : Index
deriving DecidableEq, Repr

/-- How a call can fail to return a cache. -/
inductive Fault where
  /-- A nil pointer was dereferenced (a Go panic). -/
  | nilDeref
  /-- The loop bound of the embedding was used up. -/
  | outOfFuel
deriving DecidableEq, Repr

deriving instance DecidableEq for Except

/-- A configuration function, `type Option func(*Cache)`. -/
abbrev CacheOption := Cache → Cache

/-- The option `WithMaxSizeBytes(s)`: `c.maxSize = max(0, s)`. -/
def WithMaxSizeBytes (s : Int) : CacheOption :=
  fun c => { c with maxSize := max 0 s }

/-- The constructor `NewCache(opts...)`: an empty cache with the default
ceiling, then every option applied in order. -/
def NewCache (opts : List CacheOption) : Cache :=
  opts.foldl (fun c fn => fn c)
    { items := [], maxSize := DefaultMaxSizeBytes, size := 0, vals := [] }

/-- The method `evict`: removes the front of the global chain and the front of
that item's per-key chain. `Front()` of an empty chain is nil, so is the map
read of an absent key, and each is dereferenced. -/
def evict (c : Cache) : Except Fault Cache :=
  match c.items with
  | [] => .error .nilDeref
  | i :: rest =>
    match c.vals.get i.key with
    | none => .error .nilDeref
    | some kl =>
      if kl.length = 1 then
        .ok { c with vals := c.vals.delete i.key, items := rest,
                     size := c.size - i.footprint }
      else
        match kl with
        | [] => .error .nilDeref
        | _ :: kl' =>
          .ok { c with vals := c.vals.set i.key kl', items := rest,
                       size := c.size - i.footprint }

/-- The loop `for c.size > c.maxSize { c.evict() }`, run for at most `fuel`
iterations. -/
def evictLoop : Nat → Cache → Except Fault Cache
  | 0, c => if c.size > c.maxSize then .error .outOfFuel else .ok c
  | fuel + 1, c =>
    if c.size > c.maxSize then
      match evict c with
      | .ok c' => evictLoop fuel c'
      | .error e => .error e
    else .ok c

/-- The method `Add(key, cur, val)`. Every successful `evict` shortens the
global chain by one, so `items.length + 1` iterations are never used up. -/
def Add (c : Cache) (key : Bytes) (cur : Nat) (val : Bytes) : Except Fault Cache :=
  match evictLoop (c.items.length + 1)
      { c with size := c.size + footprint key val } with
  | .error e => .error e
  | .ok c1 =>
    let i : item := { key := key, cur := cur, val := val }
    let kl : List item :=
      match c1.vals.get key with
      | some kl => kl
      | none => []
    .ok { c1 with vals := c1.vals.set key (kl ++ [i]), items := c1.items ++ [i] }

/-- The method `Resize(maxBytes)`. -/
def Resize (c : Cache) (maxBytes : Int) : Except Fault Cache :=
  evictLoop (c.items.length + 1) { c with maxSize := maxBytes }

/-- The method `Size()`. -/
def Size (c : Cache) : Int := c.size

/-- The method `Len()`: `c.items.Len()`. -/
def Len (c : Cache) : Nat := c.items.length

/-- The method `First()`: cursor and value of the front of the global chain,
the zero values when it is empty. -/
def First (c : Cache) : Nat × Bytes :=
  match c.items with
  | [] => (0, [])
  | i :: _ => (i.cur, i.val)

/-- The method `Last()`: cursor and value of the back of the global chain, the
zero values when it is empty. -/
def Last (c : Cache) : Nat × Bytes :=
  match c.items.getLast? with
  | none => (0, [])
  | some i => (i.cur, i.val)

/-- What an iterator hands to `yield` for an item. -/
def item.pair (i : item) : Nat × Bytes := (i.cur, i.val)

/-- The method `Iter(key)`: the sequence yielded to a consumer that never
stops, front of the key's chain first. -/
def Iter (c : Cache) (key : Bytes) : List (Nat × Bytes) :=
  match c.vals.get key with
  | none => []
  | some kl => kl.map item.pair

/-- The backward loop of `IterAfter` on a chain given back first: steps towards
the front while the cursor is above `cur`. The result starts at the element the
loop stops on and is empty when it runs off the front. -/
def scanBack (cur : Nat) : List item → List item
  | [] => []
  | i :: before => if i.cur > cur then scanBack cur before else i :: before

/-- The method `IterAfter(key, cur)`: the sequence yielded to a consumer that
never stops. The forward loop starts on the element the backward loop stopped
on, or on `Front()` when that is nil, and yields the items with a cursor above
`cur`. -/
def IterAfter (c : Cache) (key : Bytes) (cur : Nat) : List (Nat × Bytes) :=
  match c.vals.get key with
  | none => []
  | some kl =>
    let stop := scanBack cur kl.reverse
    let start : List item :=
      match stop with
      | [] => kl
      | _ :: _ => kl.drop (stop.length - 1)
    (start.filter (fun i => i.cur > cur)).map item.pair

/-- One call on a cache. -/
inductive Op where
  | add (key : Bytes) (cur : Nat) (val : Bytes)
  | resize (maxBytes : Int)
deriving DecidableEq, Repr

/-- Performs one call. -/
def step (c : Cache) : Op → Except Fault Cache
  | .add key cur val => Add c key cur val
  | .resize maxBytes => Resize c maxBytes

/-- Performs a sequence of calls, stopping at the first one that fails. -/
def run (c : Cache) : List Op → Except Fault Cache
  | [] => .ok c
  | op :: ops =>
    match step c op with
    | .ok c' => run c' ops
    | .error e => .error e

/-- The caches that `NewCache` with `WithMaxSizeBytes` options and a finite
sequence of `Add` and `Resize` calls, each returning normally, lead to. -/
def Reachable (c : Cache) : Prop :=
  ∃ (sizes : List Int) (ops : List Op),
    run (NewCache (sizes.map WithMaxSizeBytes)) ops = .ok c

/-- The records of the global chain stored under key `k`, in chain order. -/
def chain (items : List item) (k : Bytes) : List item :=
  items.filter (fun i => decide (i.key = k))

/-- Sum of the footprints of a list of records. -/
def sumFootprint (l : List item) : Int := (l.map item.footprint).sum

/-- The per-key index agrees with the global chain: a key with no record has
no entry, any other key stores exactly its records of the global chain. -/
def Consistent (c : Cache) : Prop :=
  ∀ k, c.vals.get k = if chain c.items k = [] then none else some (chain c.items k)

/-- The records handed to `Add` by a sequence of calls, oldest first. -/
def added : List Op → List item
  | [] => []
  | .add key cur val :: ops => { key := key, cur := cur, val := val } :: added ops
  | .resize _ :: ops => added ops

/-- The caller obligation on cursors: of two `Add` calls for the same key the
later one has the larger cursor. -/
def MonotoneCursors (ops : List Op) : Prop :=
  (added ops).Pairwise (fun a b => a.key = b.key → a.cur < b.cur)

instance (ops : List Op) : Decidable (MonotoneCursors ops) :=
  inferInstanceAs
    (Decidable ((added ops).Pairwise (fun (a b : item) => a.key = b.key → a.cur < b.cur)))

/-- The state invariant of the cache: the index is consistent with the global
chain, the byte total is the footprint of the global chain, and the total is
within the ceiling. -/
def Inv (c : Cache) : Prop :=
  Consistent c ∧ c.size = sumFootprint c.items ∧ c.size ≤ c.maxSize

/-- The keys that have an entry in the per-key index. -/
def Index.keys (m : Index) : List Bytes := m.map Prod.fst

/-- The caches on which the loop `for c.size > c.maxSize { c.evict() }` calls
`evict`, in call order, for at most `fuel` iterations. -/
def evictCalls : Nat → Cache → List Cache
  | 0, _ => []
  | fuel + 1, c =>
    if c.size > c.maxSize then
      c :: (match evict c with
        | .ok c' => evictCalls fuel c'
        | .error _ => [])
    else []

/-- The loop `for el := kl.Front(); el != nil; el = el.Next()` of `Iter` with
body `if !yield(i.cur, i.val) { return }`. A consumer is a state `s` and a
function `yield` that gives the next state and whether to go on. -/
def forEach {σ : Type} (yield : σ → Nat → Bytes → σ × Bool) : List item → σ → σ
  | [], s => s
  | i :: rest, s =>
    match yield s i.cur i.val with
    | (s', true) => forEach yield rest s'
    | (s', false) => s'

/-- The forward loop of `IterAfter` with body
`if i.cur > cur && !yield(i.cur, i.val) { return }`. -/
def forEachAfter {σ : Type} (cur : Nat) (yield : σ → Nat → Bytes → σ × Bool) :
    List item → σ → σ
  | [], s => s
  | i :: rest, s =>
    if i.cur > cur then
      match yield s i.cur i.val with
      | (s', true) => forEachAfter cur yield rest s'
      | (s', false) => s'
    else forEachAfter cur yield rest s

/-- The function returned by `Iter(key)` applied to a consumer: the consumer
state at the end and the cache, which the function only reads. -/
def IterWith {σ : Type} (c : Cache) (key : Bytes) (yield : σ → Nat → Bytes → σ × Bool)
    (s : σ) : σ × Cache :=
  match c.vals.get key with
  | none => (s, c)
  | some kl => (forEach yield kl s, c)

/-- The function returned by `IterAfter(key, cur)` applied to a consumer: the
consumer state at the end and the cache, which the function only reads. -/
def IterAfterWith {σ : Type} (c : Cache) (key : Bytes) (cur : Nat)
    (yield : σ → Nat → Bytes → σ × Bool) (s : σ) : σ × Cache :=
  match c.vals.get key with
  | none => (s, c)
  | some kl =>
    let stop := scanBack cur kl.reverse
    let start : List item :=
      match stop with
      | [] => kl
      | _ :: _ => kl.drop (stop.length - 1)
    (forEachAfter cur yield start s, c)

/-- The consumer `for cur, val := range seq { ... }` without `break`: records
every pair it is handed. -/
def collectAll (s : List (Nat × Bytes)) (cur : Nat) (val : Bytes) :
    List (Nat × Bytes) × Bool :=
  (s ++ [(cur, val)], true)

/-- The consumer `for cur, val := range seq { ...; break }`: records the pair it
is handed and stops. -/
def stopAfterFirst (s : List (Nat × Bytes)) (cur : Nat) (val : Bytes) :
    List (Nat × Bytes) × Bool :=
  (s ++ [(cur, val)], false)

/-- The records of a chain that lie after the last position whose cursor is at
most `cur`; the whole chain when there is no such position. -/
def afterLastAtMost (cur : Nat) (kl : List item) : List item :=
  (kl.reverse.takeWhile (fun i => decide (i.cur > cur))).reverse

/-! ## Concrete caches used to instantiate the theorems -/

/-- The bytes of `"test-key"`. -/
def testKey : Bytes := [116, 101, 115, 116, 45, 107, 101, 121]

/-- The bytes of `"test-value-"` followed by the digit `d`. -/
def testValue (d : UInt8) : Bytes :=
  [116, 101, 115, 116, 45, 118, 97, 108, 117, 101, 45, d]

/-- The calls of `TestCache` up to the subtest `evict`: four records of
footprint `20 + overhead` under one key. -/
def testOps : List Op :=
  [.add testKey 1 (testValue 49), .add testKey 2 (testValue 50),
   .add testKey 3 (testValue 51), .add testKey 4 (testValue 52)]

/-- The cache of `TestCache` after the subtest `evict`, built with
`WithMaxSizeBytes(3 * (20 + overhead))`. -/
def testCache : Cache :=
  { items := [⟨testKey, 2, testValue 50⟩, ⟨testKey, 3, testValue 51⟩,
              ⟨testKey, 4, testValue 52⟩],
    maxSize := 108,
    size := 108,
    vals := [(testKey, [⟨testKey, 2, testValue 50⟩, ⟨testKey, 3, testValue 51⟩,
                        ⟨testKey, 4, testValue 52⟩])] }

/-- The cache `testCache` after `Add("test-key", 5, "test-value-5")`. -/
def testCacheAdded : Cache :=
  { items := [⟨testKey, 3, testValue 51⟩, ⟨testKey, 4, testValue 52⟩,
              ⟨testKey, 5, testValue 53⟩],
    maxSize := 108,
    size := 108,
    vals := [(testKey, [⟨testKey, 3, testValue 51⟩, ⟨testKey, 4, testValue 52⟩,
                        ⟨testKey, 5, testValue 53⟩])] }

/-- The cache `testCache` after `Resize(2 * (20 + overhead))`, the subtest
`resize` of `TestCache`. -/
def testCacheResized : Cache :=
  { items := [⟨testKey, 3, testValue 51⟩, ⟨testKey, 4, testValue 52⟩],
    maxSize := 72,
    size := 72,
    vals := [(testKey, [⟨testKey, 3, testValue 51⟩, ⟨testKey, 4, testValue 52⟩])] }

/-- Calls that interleave two one-byte keys, each record of footprint 18. -/
def mixedOps : List Op :=
  [.add [97] 1 [1], .add [98] 1 [2], .add [97] 2 [3], .add [98] 2 [4]]

/-- The cache after `mixedOps` under a ceiling of 60 bytes. -/
def mixedCache : Cache :=
  { items := [⟨[98], 1, [2]⟩, ⟨[97], 2, [3]⟩, ⟨[98], 2, [4]⟩],
    maxSize := 60,
    size := 54,
    vals := [(97 :: [], [⟨[97], 2, [3]⟩]), (98 :: [], [⟨[98], 1, [2]⟩, ⟨[98], 2, [4]⟩])] }

/-- Calls that add the cursors 5, 1, 3 under one key, out of order. -/
def unsortedOps : List Op :=
  [.add [107] 5 [1], .add [107] 1 [2], .add [107] 3 [3]]

/-- The cache after `unsortedOps` under a ceiling of 100 bytes. -/
def unsortedCache : Cache :=
  { items := [⟨[107], 5, [1]⟩, ⟨[107], 1, [2]⟩, ⟨[107], 3, [3]⟩],
    maxSize := 100,
    size := 54,
    vals := [(107 :: [], [⟨[107], 5, [1]⟩, ⟨[107], 1, [2]⟩, ⟨[107], 3, [3]⟩])] }

/-- The cache after `Add("k", 0, "v")` under a ceiling of 100 bytes: the only
record has the cursor 0. -/
def zeroCursorCache : Cache :=
  { items := [⟨[107], 0, [118]⟩],
    maxSize := 100,
    size := 18,
    vals := [(107 :: [], [⟨[107], 0, [118]⟩])] }

/-- Calls that add the cursors 1, 2 under one key in increasing order and the
cursors 5, 3 under another key out of order. -/
def partlySortedOps : List Op :=
  [.add [97] 1 [1], .add [98] 5 [2], .add [98] 3 [3], .add [97] 2 [4]]

/-- The cache after `partlySortedOps` under a ceiling of 100 bytes. -/
def partlySortedCache : Cache :=
  { items := [⟨[97], 1, [1]⟩, ⟨[98], 5, [2]⟩, ⟨[98], 3, [3]⟩, ⟨[97], 2, [4]⟩],
    maxSize := 100,
    size := 72,
    vals := [(97 :: [], [⟨[97], 1, [1]⟩, ⟨[97], 2, [4]⟩]),
             (98 :: [], [⟨[98], 5, [2]⟩, ⟨[98], 3, [3]⟩])] }

/-! ## The per-key index -/

theorem Index.get_set_self (m : Index) (k : Bytes) (kl : List item) :
    (m.set k kl).get k = some kl := by
  induction m with
  | nil => simp [Index.set, Index.get]
  | cons e m ih =>
    obtain ⟨k', kl'⟩ := e
    by_cases h : k' = k
    · simp [Index.set, Index.get, h]
    · simp [Index.set, Index.get, h, ih]

theorem Index.get_set_ne (m : Index) (k k' : Bytes) (kl : List item) (h : k ≠ k') :
    (m.set k kl).get k' = m.get k' := by
  induction m with
  | nil => simp [Index.set, Index.get, h]
  | cons e m ih =>
    obtain ⟨k0, kl0⟩ := e
    by_cases h0 : k0 = k
    · subst h0
      simp [Index.set, Index.get, h]
    · by_cases h1 : k0 = k'
      · subst h1
        simp [Index.set, Index.get, h0]
      · simp [Index.set, Index.get, h0, h1, ih]

theorem Index.get_delete_self (m : Index) (k : Bytes) : (m.delete k).get k = none := by
  induction m with
  | nil => simp [Index.delete, Index.get]
  | cons e m ih =>
    obtain ⟨k0, kl0⟩ := e
    by_cases h0 : k0 = k
    · simp [Index.delete, h0, ih]
    · simp [Index.delete, Index.get, h0, ih]

theorem Index.get_delete_ne (m : Index) (k k' : Bytes) (h : k ≠ k') :
    (m.delete k).get k' = m.get k' := by
  induction m with
  | nil => simp [Index.delete, Index.get]
  | cons e m ih =>
    obtain ⟨k0, kl0⟩ := e
    by_cases h0 : k0 = k
    · subst h0
      simp [Index.delete, Index.get, h, ih]
    · by_cases h1 : k0 = k'
      · subst h1
        simp [Index.delete, Index.get, h0]
      · simp [Index.delete, Index.get, h0, h1, ih]

theorem Index.eq_nil_of_get_none (m : Index) (h : ∀ k, m.get k = none) : m = [] := by
  cases m with
  | nil => rfl
  | cons e m =>
    obtain ⟨k0, kl0⟩ := e
    have := h k0
    simp [Index.get] at this

/-! ## Footprints and chains -/

theorem footprint_pos (key val : Bytes) : 0 < footprint key val := by
  unfold footprint overhead
  omega

theorem sumFootprint_nil : sumFootprint [] = 0 := rfl

theorem sumFootprint_cons (i : item) (l : List item) :
    sumFootprint (i :: l) = i.footprint + sumFootprint l := by
  simp [sumFootprint]

theorem sumFootprint_append (l₁ l₂ : List item) :
    sumFootprint (l₁ ++ l₂) = sumFootprint l₁ + sumFootprint l₂ := by
  simp [sumFootprint]

theorem sumFootprint_nonneg (l : List item) : 0 ≤ sumFootprint l := by
  induction l with
  | nil => simp [sumFootprint]
  | cons i l ih =>
    have := footprint_pos i.key i.val
    rw [sumFootprint_cons]
    unfold item.footprint
    omega

theorem sumFootprint_pos_of_ne_nil (l : List item) (h : l ≠ []) : 0 < sumFootprint l := by
  cases l with
  | nil => exact absurd rfl h
  | cons i l =>
    have h1 := footprint_pos i.key i.val
    have h2 := sumFootprint_nonneg l
    rw [sumFootprint_cons]
    unfold item.footprint
    omega

theorem chain_cons_self (i : item) (rest : List item) :
    chain (i :: rest) i.key = i :: chain rest i.key := by
  simp [chain]

theorem chain_cons_ne (i : item) (rest : List item) (k : Bytes) (h : i.key ≠ k) :
    chain (i :: rest) k = chain rest k := by
  simp [chain, h]

theorem chain_append (l₁ l₂ : List item) (k : Bytes) :
    chain (l₁ ++ l₂) k = chain l₁ k ++ chain l₂ k := by
  simp [chain]

theorem chain_key (items : List item) (k : Bytes) : ∀ i ∈ chain items k, i.key = k := by
  intro i hi
  simpa [chain] using (List.mem_filter.mp hi).2

/-! ## Eviction -/

/-- On a consistent cache with a non-empty global chain `evict` returns: it
drops the front record, gives back its footprint and keeps the index
consistent. -/
theorem evict_cons (c : Cache) (i : item) (rest : List item) (hc : Consistent c)
    (hi : c.items = i :: rest) :
    ∃ c', evict c = .ok c' ∧ c'.items = rest ∧ c'.size = c.size - i.footprint ∧
      c'.maxSize = c.maxSize ∧ Consistent c' := by
  have hget := hc i.key
  rw [hi, chain_cons_self] at hget
  simp only [reduceCtorEq, if_false] at hget
  by_cases hlen : (chain rest i.key).length = 0
  · have hnil : chain rest i.key = [] := List.length_eq_zero.mp hlen
    refine ⟨{ c with vals := c.vals.delete i.key, items := rest,
                     size := c.size - i.footprint }, ?_, rfl, rfl, rfl, ?_⟩
    · simp [evict, hi, hget, hnil]
    · intro k
      by_cases hk : i.key = k
      · subst hk
        simp [Index.get_delete_self, hnil]
      · have := hc k
        rw [hi, chain_cons_ne i rest k hk] at this
        simpa [Index.get_delete_ne _ _ _ hk] using this
  · refine ⟨{ c with vals := c.vals.set i.key (chain rest i.key), items := rest,
                     size := c.size - i.footprint }, ?_, rfl, rfl, rfl, ?_⟩
    · simp [evict, hi, hget, hlen]
    · intro k
      by_cases hk : i.key = k
      · subst hk
        have hne : chain rest i.key ≠ [] := fun h => hlen (by simp [h])
        simp [Index.get_set_self, hne]
      · have := hc k
        rw [hi, chain_cons_ne i rest k hk] at this
        simpa [Index.get_set_ne _ _ _ _ hk] using this

/-- A successful `evict` shortens the global chain by exactly one record. -/
theorem evict_length (c c' : Cache) (h : evict c = .ok c') :
    c'.items.length + 1 = c.items.length := by
  unfold evict at h
  split at h
  · simp at h
  · rename_i i rest hi
    split at h
    · simp at h
    · split at h
      · simp only [Except.ok.injEq] at h
        subst h
        simp [hi]
      · split at h
        · simp at h
        · simp only [Except.ok.injEq] at h
          subst h
          simp [hi]

/-- More iterations than the global chain has records are never used up: the
loop bound chosen in `Add` and `Resize` does not cut the loop short. -/
theorem evictLoop_fuel (n m : Nat) (c : Cache) (hn : c.items.length < n)
    (hm : c.items.length < m) : evictLoop n c = evictLoop m c := by
  induction n generalizing m c with
  | zero => omega
  | succ n ih =>
    cases m with
    | zero => omega
    | succ m =>
      unfold evictLoop
      by_cases hgt : c.size > c.maxSize
      · simp only [hgt, if_true]
        cases hev : evict c with
        | error e => rfl
        | ok c' =>
          have hl := evict_length c c' hev
          exact ih m c' (by omega) (by omega)
      · simp [hgt]

theorem evictLoop_ne_outOfFuel (n : Nat) (c : Cache) (hn : c.items.length < n) :
    evictLoop n c ≠ .error .outOfFuel := by
  induction n generalizing c with
  | zero => omega
  | succ n ih =>
    unfold evictLoop
    by_cases hgt : c.size > c.maxSize
    · simp only [hgt, if_true]
      cases hev : evict c with
      | error e =>
        unfold evict at hev
        split at hev
        · simp only [Except.error.injEq] at hev
          subst hev
          simp
        · split at hev
          · simp only [Except.error.injEq] at hev
            subst hev
            simp
          · split at hev
            · simp at hev
            · split at hev
              · simp only [Except.error.injEq] at hev
                subst hev
                simp
              · simp at hev
      | ok c' =>
        have hl := evict_length c c' hev
        exact ih c' (by omega)
    · simp [hgt]

/-- The eviction loop on a consistent cache whose byte total is the footprint
of its global chain plus `d`, when `d` fits the ceiling: the loop returns after
dropping the least number `k` of front records that brings the total within the
ceiling. -/
theorem evictLoop_ok (n : Nat) (c : Cache) (d : Int) (hc : Consistent c)
    (hsize : c.size = sumFootprint c.items + d) (hd : d ≤ c.maxSize)
    (hn : c.items.length < n) :
    ∃ k c', k ≤ c.items.length ∧ evictLoop n c = .ok c' ∧ c'.items = c.items.drop k ∧
      c'.size = sumFootprint (c.items.drop k) + d ∧ c'.maxSize = c.maxSize ∧
      Consistent c' ∧ c'.size ≤ c'.maxSize ∧
      ∀ j, j < k → c.maxSize < sumFootprint (c.items.drop j) + d := by
  induction n generalizing c with
  | zero => omega
  | succ n ih =>
    by_cases hgt : c.size > c.maxSize
    · cases hi : c.items with
      | nil =>
        rw [hi, sumFootprint_nil] at hsize
        omega
      | cons i rest =>
        obtain ⟨c1, hev, hitems, hsz, hmax, hc1⟩ := evict_cons c i rest hc hi
        have hsize1 : c1.size = sumFootprint c1.items + d := by
          rw [hsz, hitems, hsize, hi, sumFootprint_cons]
          ring
        have hn1 : c1.items.length < n := by
          rw [hitems]
          rw [hi] at hn
          simp at hn
          omega
        obtain ⟨k, c', hk, hrun, hit, hsz', hmax', hc', hle, hmin⟩ :=
          ih c1 hc1 hsize1 (by rw [hmax]; exact hd) hn1
        refine ⟨k + 1, c', ?_, ?_, ?_, ?_, ?_, hc', hle, ?_⟩
        · rw [hitems] at hk
          simp
          omega
        · unfold evictLoop
          simp only [hgt, if_true, hev]
          exact hrun
        · rw [hit, hitems]
          simp
        · rw [hsz', hitems]
          simp
        · rw [hmax', hmax]
        · intro j hj
          cases j with
          | zero =>
            rw [List.drop_zero, ← hi, ← hsize]
            exact hgt
          | succ j =>
            have := hmin j (by omega)
            rw [hmax, hitems] at this
            simpa using this
    · refine ⟨0, c, Nat.zero_le _, ?_, by simp, by simpa using hsize, rfl, hc,
        by omega, ?_⟩
      · unfold evictLoop
        cases n <;> simp [hgt]
      · intro j hj
        omega

/-- The eviction loop when the part `d` of the byte total that is not in the
global chain exceeds the ceiling: every record is evicted and `evict` is then
called on the empty chain. -/
theorem evictLoop_panics (n : Nat) (c : Cache) (d : Int) (hc : Consistent c)
    (hsize : c.size = sumFootprint c.items + d) (hd : c.maxSize < d)
    (hn : c.items.length < n) : evictLoop n c = .error .nilDeref := by
  induction n generalizing c with
  | zero => omega
  | succ n ih =>
    have hgt : c.size > c.maxSize := by
      have := sumFootprint_nonneg c.items
      omega
    cases hi : c.items with
    | nil =>
      unfold evictLoop
      simp [hgt, evict, hi]
    | cons i rest =>
      obtain ⟨c1, hev, hitems, hsz, hmax, hc1⟩ := evict_cons c i rest hc hi
      have hsize1 : c1.size = sumFootprint c1.items + d := by
        rw [hsz, hitems, hsize, hi, sumFootprint_cons]
        ring
      have hn1 : c1.items.length < n := by
        rw [hitems]
        rw [hi] at hn
        simp at hn
        omega
      unfold evictLoop
      simp only [hgt, if_true, hev]
      exact ih c1 hc1 hsize1 (by rw [hmax]; exact hd) hn1

/-! ## Add and Resize on a cache that satisfies the invariant -/

theorem Add_ok (c : Cache) (hinv : Inv c) (key : Bytes) (cur : Nat) (val : Bytes)
    (hfit : footprint key val ≤ c.maxSize) :
    ∃ k c', k ≤ c.items.length ∧ Add c key cur val = .ok c' ∧
      c'.items = c.items.drop k ++ [{ key := key, cur := cur, val := val }] ∧
      c'.maxSize = c.maxSize ∧ Inv c' ∧
      sumFootprint (c.items.drop k) + footprint key val ≤ c.maxSize ∧
      ∀ j, j < k → c.maxSize < sumFootprint (c.items.drop j) + footprint key val := by
  obtain ⟨hc, hsize, _⟩ := hinv
  obtain ⟨k, c1, hk, hrun, hit, hsz, hmax, hc1, hle, hmin⟩ :=
    evictLoop_ok (c.items.length + 1) { c with size := c.size + footprint key val }
      (footprint key val) hc (by simp [hsize]) hfit (by simp)
  simp only at hk hit hsz hmax hmin
  have hkl : (match c1.vals.get key with
      | some kl => kl
      | none => []) = chain c1.items key := by
    rw [hc1 key]
    by_cases hnil : chain c1.items key = []
    · simp [hnil]
    · simp [hnil]
  refine ⟨k, { c1 with
      vals := c1.vals.set key (chain c1.items key ++ [{ key := key, cur := cur, val := val }]),
      items := c1.items ++ [{ key := key, cur := cur, val := val }] }, hk, ?_, ?_, hmax,
    ⟨?_, ?_, ?_⟩, ?_, hmin⟩
  · unfold Add
    rw [hrun]
    simp only [hkl]
  · simp [hit]
  · intro k'
    by_cases hk' : key = k'
    · subst hk'
      simp [Index.get_set_self, chain_append, chain]
    · have := hc1 k'
      simp only [Index.get_set_ne _ _ _ _ hk', chain_append]
      simpa [chain, hk'] using this
  · simp only [sumFootprint_append, sumFootprint_cons, sumFootprint_nil, item.footprint]
    rw [hsz, hit]
    ring
  · exact hle
  · rw [hsz, hmax] at hle
    exact hle

theorem Add_panics (c : Cache) (hinv : Inv c) (key : Bytes) (cur : Nat) (val : Bytes)
    (hbig : c.maxSize < footprint key val) : Add c key cur val = .error .nilDeref := by
  obtain ⟨hc, hsize, _⟩ := hinv
  have := evictLoop_panics (c.items.length + 1) { c with size := c.size + footprint key val }
      (footprint key val) hc (by simp [hsize]) hbig (by simp)
  unfold Add
  rw [this]

theorem Resize_ok (c : Cache) (hinv : Inv c) (maxBytes : Int) (hnn : 0 ≤ maxBytes) :
    ∃ k c', k ≤ c.items.length ∧ Resize c maxBytes = .ok c' ∧
      c'.items = c.items.drop k ∧ c'.maxSize = maxBytes ∧ Inv c' ∧
      sumFootprint (c.items.drop k) ≤ maxBytes ∧
      ∀ j, j < k → maxBytes < sumFootprint (c.items.drop j) := by
  obtain ⟨hc, hsize, _⟩ := hinv
  obtain ⟨k, c1, hk, hrun, hit, hsz, hmax, hc1, hle, hmin⟩ :=
    evictLoop_ok (c.items.length + 1) { c with maxSize := maxBytes } 0 hc
      (by simp [hsize]) hnn (by simp)
  simp only [add_zero] at hk hit hsz hmax hmin
  refine ⟨k, c1, hk, hrun, hit, hmax, ⟨hc1, ?_, hle⟩, ?_, hmin⟩
  · rw [hsz, hit]
  · rw [hsz, hmax] at hle
    exact hle

theorem Resize_panics (c : Cache) (hinv : Inv c) (maxBytes : Int) (hneg : maxBytes < 0) :
    Resize c maxBytes = .error .nilDeref := by
  obtain ⟨hc, hsize, _⟩ := hinv
  exact evictLoop_panics (c.items.length + 1) { c with maxSize := maxBytes } 0 hc
      (by simp [hsize]) hneg (by simp)

/-! ## Reachable caches -/

theorem suffix_append_right {l₁ l₂ : List item} (h : l₁ <:+ l₂) (l : List item) :
    l₁ ++ l <:+ l₂ ++ l := by
  obtain ⟨t, rfl⟩ := h
  exact ⟨t, by simp⟩

theorem NewCache_fold (sizes : List Int) (c : Cache) (h : 0 ≤ c.maxSize) :
    ((sizes.map WithMaxSizeBytes).foldl (fun c fn => fn c) c).items = c.items ∧
    ((sizes.map WithMaxSizeBytes).foldl (fun c fn => fn c) c).size = c.size ∧
    ((sizes.map WithMaxSizeBytes).foldl (fun c fn => fn c) c).vals = c.vals ∧
    0 ≤ ((sizes.map WithMaxSizeBytes).foldl (fun c fn => fn c) c).maxSize := by
  induction sizes generalizing c with
  | nil => simp [h]
  | cons s sizes ih =>
    simp only [List.map_cons, List.foldl_cons]
    have := ih (WithMaxSizeBytes s c) (by simp [WithMaxSizeBytes])
    simpa [WithMaxSizeBytes] using this

theorem NewCache_inv (sizes : List Int) :
    Inv (NewCache (sizes.map WithMaxSizeBytes)) ∧
      (NewCache (sizes.map WithMaxSizeBytes)).items = [] := by
  obtain ⟨h1, h2, h3, h4⟩ := NewCache_fold sizes
    { items := [], maxSize := DefaultMaxSizeBytes, size := 0, vals := [] }
    (by simp [DefaultMaxSizeBytes])
  unfold NewCache
  refine ⟨⟨?_, ?_, ?_⟩, h1⟩
  · intro k
    rw [h3, h1]
    simp [Index.get, chain]
  · rw [h2, h1]
    rfl
  · rw [h2]
    exact h4

theorem step_inv (c c' : Cache) (op : Op) (hinv : Inv c) (h : step c op = .ok c') :
    Inv c' ∧ c'.items <:+ c.items ++ added [op] := by
  cases op with
  | add key cur val =>
    simp only [step] at h
    by_cases hfit : footprint key val ≤ c.maxSize
    · obtain ⟨k, c1, _, hrun, hit, _, hinv1, _, _⟩ := Add_ok c hinv key cur val hfit
      rw [hrun] at h
      simp only [Except.ok.injEq] at h
      subst h
      refine ⟨hinv1, ?_⟩
      rw [hit]
      simp only [added]
      exact suffix_append_right (List.drop_suffix k c.items) _
    · rw [Add_panics c hinv key cur val (by omega)] at h
      simp at h
  | resize maxBytes =>
    simp only [step] at h
    by_cases hnn : 0 ≤ maxBytes
    · obtain ⟨k, c1, _, hrun, hit, _, hinv1, _, _⟩ := Resize_ok c hinv maxBytes hnn
      rw [hrun] at h
      simp only [Except.ok.injEq] at h
      subst h
      refine ⟨hinv1, ?_⟩
      rw [hit]
      simp only [added, List.append_nil]
      exact List.drop_suffix k c.items
    · rw [Resize_panics c hinv maxBytes (by omega)] at h
      simp at h

theorem added_cons (op : Op) (ops : List Op) : added (op :: ops) = added [op] ++ added ops := by
  cases op <;> simp [added]

theorem run_inv (c c' : Cache) (ops : List Op) (hinv : Inv c) (h : run c ops = .ok c') :
    Inv c' ∧ c'.items <:+ c.items ++ added ops := by
  induction ops generalizing c with
  | nil =>
    simp only [run, Except.ok.injEq] at h
    subst h
    exact ⟨hinv, by simp [added]⟩
  | cons op ops ih =>
    simp only [run] at h
    cases hs : step c op with
    | error e => simp [hs] at h
    | ok c1 =>
      rw [hs] at h
      simp only at h
      obtain ⟨hinv1, hsuf1⟩ := step_inv c c1 op hinv hs
      obtain ⟨hinv', hsuf'⟩ := ih c1 hinv1 h
      refine ⟨hinv', hsuf'.trans ?_⟩
      rw [added_cons, ← List.append_assoc]
      exact suffix_append_right hsuf1 _

theorem Reachable.inv {c : Cache} (h : Reachable c) : Inv c := by
  obtain ⟨sizes, ops, hrun⟩ := h
  exact (run_inv _ c ops (NewCache_inv sizes).1 hrun).1

/-- The global chain of a cache reached from `NewCache` is a suffix of the
records added, oldest first. -/
theorem run_items_suffix (sizes : List Int) (ops : List Op) (c : Cache)
    (h : run (NewCache (sizes.map WithMaxSizeBytes)) ops = .ok c) :
    c.items <:+ added ops := by
  have := (run_inv _ c ops (NewCache_inv sizes).1 h).2
  rw [(NewCache_inv sizes).2] at this
  simpa using this

theorem evict_maxSize (c c' : Cache) (h : evict c = .ok c') : c'.maxSize = c.maxSize := by
  unfold evict at h
  split at h
  · simp at h
  · split at h
    · simp at h
    · split at h
      · simp only [Except.ok.injEq] at h
        subst h
        rfl
      · split at h
        · simp at h
        · simp only [Except.ok.injEq] at h
          subst h
          rfl

/-- Whenever the eviction loop returns, the byte total is within the ceiling,
and the ceiling is the one it started with. -/
theorem evictLoop_post (n : Nat) (c c' : Cache) (h : evictLoop n c = .ok c') :
    c'.size ≤ c'.maxSize ∧ c'.maxSize = c.maxSize := by
  induction n generalizing c with
  | zero =>
    unfold evictLoop at h
    split at h
    · simp at h
    · simp only [Except.ok.injEq] at h
      subst h
      exact ⟨by omega, rfl⟩
  | succ n ih =>
    unfold evictLoop at h
    split at h
    · cases hev : evict c with
      | error e => simp [hev] at h
      | ok c1 =>
        rw [hev] at h
        simp only at h
        obtain ⟨h1, h2⟩ := ih c1 h
        exact ⟨h1, by rw [h2, evict_maxSize c c1 hev]⟩
    · simp only [Except.ok.injEq] at h
      subst h
      exact ⟨by omega, rfl⟩

/-! ## Iteration -/

/-- The backward loop splits the chain, read back first, into the records it
stepped over, all with a cursor above `cur`, and the rest, which starts with a
record whose cursor is at most `cur` unless it is empty. -/
theorem scanBack_spec (cur : Nat) (l : List item) :
    ∃ over, l = over ++ scanBack cur l ∧ (∀ x ∈ over, cur < x.cur) ∧
      ∀ e rest, scanBack cur l = e :: rest → e.cur ≤ cur := by
  induction l with
  | nil => exact ⟨[], by simp [scanBack]⟩
  | cons i l ih =>
    by_cases hi : i.cur > cur
    · obtain ⟨over, hsplit, hover, hstop⟩ := ih
      refine ⟨i :: over, ?_, ?_, ?_⟩
      · simp only [scanBack, hi, if_true, List.cons_append]
        rw [← hsplit]
      · intro x hx
        rcases List.mem_cons.mp hx with rfl | hx
        · exact hi
        · exact hover x hx
      · intro e rest he
        simp only [scanBack, hi, if_true] at he
        exact hstop e rest he
    · refine ⟨[], ?_, by simp, ?_⟩
      · simp [scanBack, hi]
      · intro e rest he
        simp only [scanBack, hi, if_false, List.cons.injEq] at he
        obtain ⟨rfl, _⟩ := he
        omega

/-- On a chain whose cursors increase strictly, the two loops of `IterAfter`
select the records with a cursor above `cur`. -/
theorem iterAfter_sorted (kl : List item) (cur : Nat)
    (hs : kl.Pairwise (fun a b => a.cur < b.cur)) :
    (match scanBack cur kl.reverse with
      | [] => kl
      | _ :: _ => kl.drop ((scanBack cur kl.reverse).length - 1)).filter
        (fun i => decide (i.cur > cur)) =
      kl.filter (fun i => decide (i.cur > cur)) := by
  obtain ⟨over, hsplit, hover, hstop⟩ := scanBack_spec cur kl.reverse
  cases hsb : scanBack cur kl.reverse with
  | nil => rfl
  | cons e before =>
    have he := hstop e before hsb
    rw [hsb] at hsplit
    have hkl : kl = before.reverse ++ (e :: over.reverse) := by
      have := congrArg List.reverse hsplit
      simpa using this
    have hdrop : kl.drop ((e :: before).length - 1) = e :: over.reverse := by
      rw [hkl]
      have : (e :: before).length - 1 = before.reverse.length := by simp
      rw [this, List.drop_left]
    simp only [hdrop]
    rw [hkl] at hs ⊢
    obtain ⟨_, _, hcross⟩ := List.pairwise_append.mp hs
    have hbefore : before.reverse.filter (fun i => decide (i.cur > cur)) = [] := by
      rw [List.filter_eq_nil_iff]
      intro x hx
      have := hcross x hx e (List.mem_cons_self _ _)
      simp only [gt_iff_lt, decide_eq_true_eq, not_lt]
      omega
    rw [List.filter_append, hbefore, List.nil_append]

/-- Under the caller obligation on cursors, the records of a key in the global
chain of a cache reached from `NewCache` have strictly increasing cursors. -/
theorem chain_sorted (sizes : List Int) (ops : List Op) (c : Cache)
    (hrun : run (NewCache (sizes.map WithMaxSizeBytes)) ops = .ok c)
    (hmono : MonotoneCursors ops) (key : Bytes) :
    (chain c.items key).Pairwise (fun a b => a.cur < b.cur) := by
  have hsub : (chain c.items key).Sublist (added ops) :=
    List.Sublist.trans (List.filter_sublist _) (run_items_suffix sizes ops c hrun).sublist
  have hp := List.Pairwise.sublist hsub hmono
  refine List.Pairwise.imp_of_mem ?_ hp
  intro a b ha hb hab
  exact hab ((chain_key c.items key a ha).trans (chain_key c.items key b hb).symm)

theorem Iter_eq_chain (c : Cache) (hc : Consistent c) (key : Bytes) :
    Iter c key = (chain c.items key).map item.pair := by
  unfold Iter
  rw [hc key]
  by_cases hnil : chain c.items key = []
  · simp [hnil]
  · simp [hnil]

/-- When the cursors added for one key increase strictly, so do the cursors of
the records of that key in the global chain of a cache reached from `NewCache`,
whatever the cursors added for other keys. -/
theorem chain_sorted_key (sizes : List Int) (ops : List Op) (c : Cache)
    (hrun : run (NewCache (sizes.map WithMaxSizeBytes)) ops = .ok c) (key : Bytes)
    (hmono : (((added ops).filter (fun i => decide (i.key = key))).map item.cur).Pairwise
      (fun a b => a < b)) :
    (chain c.items key).Pairwise (fun a b => a.cur < b.cur) := by
  have hsub : (chain c.items key).Sublist
      ((added ops).filter (fun i => decide (i.key = key))) :=
    List.Sublist.filter _ (run_items_suffix sizes ops c hrun).sublist
  rw [List.pairwise_map] at hmono
  exact List.Pairwise.sublist hsub hmono

/-! ## Properties of the cache -/

/-- C1: in every reachable cache `Size()` is the sum, over the records of the
global chain, of `len(key) + len(value) + 16`. -/
theorem size_accounting (c : Cache) (h : Reachable c) :
    Size c =
      (c.items.map (fun i => (i.key.length : Int) + (i.val.length : Int) + 16)).sum :=
  h.inv.2.1

theorem size_accounting_witness :
    Reachable testCache ∧
      Size testCache =
        (testCache.items.map
          (fun i => (i.key.length : Int) + (i.val.length : Int) + 16)).sum :=
  ⟨⟨[108], testOps, by decide⟩, size_accounting testCache ⟨[108], testOps, by decide⟩⟩

/-- C2: in every reachable cache the chain stored for a key, which is what
`Iter` walks, is the global chain restricted to the records of that key in the
same order; so a record is in the global chain exactly when it is in the chain
stored for its key. -/
theorem chain_consistency (c : Cache) (h : Reachable c) :
    (∀ k, (c.vals.get k).getD [] = c.items.filter (fun i => decide (i.key = k)) ∧
      Iter c k = (c.items.filter (fun i => decide (i.key = k))).map item.pair) ∧
    (∀ i, i ∈ c.items ↔ ∃ kl, c.vals.get i.key = some kl ∧ i ∈ kl) := by
  have hc := h.inv.1
  have hget : ∀ k, (c.vals.get k).getD [] = chain c.items k := by
    intro k
    rw [hc k]
    by_cases hnil : chain c.items k = []
    · simp [hnil]
    · simp [hnil]
  refine ⟨fun k => ⟨hget k, ?_⟩, ?_⟩
  · unfold Iter
    rw [hc k]
    by_cases hnil : chain c.items k = []
    · simp only [hnil, if_true]
      simp only [chain] at hnil
      rw [hnil]
      rfl
    · simp only [hnil, if_false]
      rfl
  · intro i
    rw [hc i.key]
    by_cases hnil : chain c.items i.key = []
    · simp only [hnil, if_true]
      constructor
      · intro hi
        have : i ∈ chain c.items i.key := by simp [chain, hi]
        rw [hnil] at this
        simp at this
      · rintro ⟨kl, hkl, _⟩
        simp at hkl
    · simp only [hnil, if_false]
      constructor
      · intro hi
        exact ⟨_, rfl, by simp [chain, hi]⟩
      · rintro ⟨kl, hkl, hi⟩
        simp only [Option.some.injEq] at hkl
        subst hkl
        exact (List.mem_filter.mp hi).1

theorem chain_consistency_witness :
    Reachable mixedCache ∧
      ((∀ k, (mixedCache.vals.get k).getD [] =
            mixedCache.items.filter (fun i => decide (i.key = k)) ∧
          Iter mixedCache k =
            (mixedCache.items.filter (fun i => decide (i.key = k))).map item.pair) ∧
        (∀ i, i ∈ mixedCache.items ↔
          ∃ kl, mixedCache.vals.get i.key = some kl ∧ i ∈ kl)) :=
  ⟨⟨[60], mixedOps, by decide⟩, chain_consistency mixedCache ⟨[60], mixedOps, by decide⟩⟩

/-- C3: in every reachable cache `Size()` is at most the ceiling, and whenever
an `Add` or a `Resize` on it returns, `Size()` is at most the ceiling then in
force (for `Resize` the new one). -/
theorem size_bound (c : Cache) (h : Reachable c) :
    Size c ≤ c.maxSize ∧
    (∀ key cur val c', Add c key cur val = .ok c' → Size c' ≤ c'.maxSize) ∧
    (∀ maxBytes c', Resize c maxBytes = .ok c' →
      c'.maxSize = maxBytes ∧ Size c' ≤ maxBytes) := by
  refine ⟨h.inv.2.2, ?_, ?_⟩
  · intro key cur val c' hadd
    unfold Add at hadd
    split at hadd
    · simp at hadd
    · rename_i c1 hloop
      simp only [Except.ok.injEq] at hadd
      subst hadd
      exact (evictLoop_post _ _ c1 hloop).1
  · intro maxBytes c' hres
    unfold Resize at hres
    obtain ⟨h1, h2⟩ := evictLoop_post _ _ c' hres
    simp only at h2
    exact ⟨h2, by rw [← h2]; exact h1⟩

theorem size_bound_witness :
    Reachable testCache ∧ Size testCache ≤ testCache.maxSize ∧
      (Add testCache testKey 5 (testValue 53) = .ok testCacheAdded ∧
        Size testCacheAdded ≤ testCacheAdded.maxSize) ∧
      (Resize testCache 72 = .ok testCacheResized ∧
        testCacheResized.maxSize = 72 ∧ Size testCacheResized ≤ 72) :=
  ⟨⟨[108], testOps, by decide⟩,
    (size_bound testCache ⟨[108], testOps, by decide⟩).1,
    ⟨by decide,
      (size_bound testCache ⟨[108], testOps, by decide⟩).2.1 testKey 5 (testValue 53)
        testCacheAdded (by decide)⟩,
    ⟨by decide,
      (size_bound testCache ⟨[108], testOps, by decide⟩).2.2 72 testCacheResized
        (by decide)⟩⟩

/-- C4 (what the code does at the failing input): on a cache built with
`WithMaxSizeBytes(0)`, `Add` of a record with a one-byte key and a one-byte
value does not return; `evict` is called on the empty global chain and
dereferences nil. -/
theorem Add_oversized_nilDeref :
    Add (NewCache [WithMaxSizeBytes 0]) [107] 1 [118] = .error .nilDeref := by
  decide

/-- On every reachable cache, `Add` of a record whose footprint exceeds the
ceiling ends in the nil dereference of `evict` on the empty chain. -/
theorem Add_fails_of_oversized (c : Cache) (h : Reachable c) (key : Bytes) (cur : Nat)
    (val : Bytes) (hbig : c.maxSize < footprint key val) :
    Add c key cur val = .error .nilDeref :=
  Add_panics c h.inv key cur val hbig

/-- C5: on a reachable cache with global chain `G` and ceiling `M`, `Add` of a
record `r` whose footprint is at most `M` returns, and the new global chain is
`G` without its first `k` records, followed by `r`, where `k` is the least
number for which the footprints of the remaining records plus that of `r` sum
to at most `M`. -/
theorem Add_global_fifo (c : Cache) (h : Reachable c) (key : Bytes) (cur : Nat)
    (val : Bytes) (hfit : footprint key val ≤ c.maxSize) :
    ∃ k c', k ≤ c.items.length ∧ Add c key cur val = .ok c' ∧
      c'.items = c.items.drop k ++ [{ key := key, cur := cur, val := val }] ∧
      sumFootprint (c.items.drop k) + footprint key val ≤ c.maxSize ∧
      ∀ j, j < k → c.maxSize < sumFootprint (c.items.drop j) + footprint key val := by
  obtain ⟨k, c', hk, hadd, hit, _, _, hle, hmin⟩ := Add_ok c h.inv key cur val hfit
  exact ⟨k, c', hk, hadd, hit, hle, hmin⟩

theorem Add_global_fifo_witness :
    Reachable mixedCache ∧ footprint [97] [5, 6, 7, 8, 9, 10, 11] ≤ mixedCache.maxSize ∧
      ∃ k c', k ≤ mixedCache.items.length ∧
        Add mixedCache [97] 3 [5, 6, 7, 8, 9, 10, 11] = .ok c' ∧
        c'.items = mixedCache.items.drop k ++
          [{ key := [97], cur := 3, val := [5, 6, 7, 8, 9, 10, 11] }] ∧
        sumFootprint (mixedCache.items.drop k) + footprint [97] [5, 6, 7, 8, 9, 10, 11]
          ≤ mixedCache.maxSize ∧
        ∀ j, j < k → mixedCache.maxSize <
          sumFootprint (mixedCache.items.drop j) + footprint [97] [5, 6, 7, 8, 9, 10, 11] :=
  ⟨⟨[60], mixedOps, by decide⟩, by decide,
    Add_global_fifo mixedCache ⟨[60], mixedOps, by decide⟩ [97] 3 [5, 6, 7, 8, 9, 10, 11]
      (by decide)⟩

/-- C6: on a cache reached by calls whose cursors, for each key, increase
strictly from one `Add` to the next, `IterAfter(key, cur)` yields exactly the
pairs of `Iter(key)` whose cursor is above `cur`, in the same order. -/
theorem IterAfter_filters_Iter (sizes : List Int) (ops : List Op) (c : Cache)
    (hrun : run (NewCache (sizes.map WithMaxSizeBytes)) ops = .ok c)
    (hmono : MonotoneCursors ops) (key : Bytes) (cur : Nat) :
    IterAfter c key cur = (Iter c key).filter (fun p => decide (p.1 > cur)) := by
  have hc : Consistent c := (Reachable.inv ⟨sizes, ops, hrun⟩).1
  have hs := chain_sorted sizes ops c hrun hmono key
  rw [Iter_eq_chain c hc key]
  unfold IterAfter
  rw [hc key]
  by_cases hnil : chain c.items key = []
  · simp [hnil]
  · simp only [hnil, if_false]
    rw [iterAfter_sorted _ cur hs, List.filter_map]
    rfl

theorem IterAfter_filters_Iter_witness :
    run (NewCache ([108].map WithMaxSizeBytes)) testOps = .ok testCache ∧
      MonotoneCursors testOps ∧
      IterAfter testCache testKey 2 =
        (Iter testCache testKey).filter (fun p => decide (p.1 > 2)) :=
  ⟨by decide, by decide,
    IterAfter_filters_Iter [108] testOps testCache (by decide) (by decide) testKey 2⟩

/-- C7: on a cache reached from `NewCache`, `Iter(key)` yields the pairs of the
records of the global chain stored under `key`, oldest first; they are the
newest of the records added under `key`, in the order of the `Add` calls; and
when the cursors added for that key increase strictly, whatever the cursors
added for other keys, so do the cursors yielded. -/
theorem Iter_order (sizes : List Int) (ops : List Op) (c : Cache)
    (hrun : run (NewCache (sizes.map WithMaxSizeBytes)) ops = .ok c) (key : Bytes) :
    Iter c key = (c.items.filter (fun i => decide (i.key = key))).map item.pair ∧
    Iter c key <:+ ((added ops).filter (fun i => decide (i.key = key))).map item.pair ∧
    ((((added ops).filter (fun i => decide (i.key = key))).map item.cur).Pairwise
        (fun a b => a < b) →
      ((Iter c key).map Prod.fst).Pairwise (fun a b => a < b)) := by
  have hc : Consistent c := (Reachable.inv ⟨sizes, ops, hrun⟩).1
  have hiter := Iter_eq_chain c hc key
  refine ⟨hiter, ?_, ?_⟩
  · obtain ⟨t, ht⟩ := run_items_suffix sizes ops c hrun
    rw [hiter, ← ht, List.filter_append, List.map_append]
    exact List.suffix_append _ _
  · intro hmono
    have hs := chain_sorted_key sizes ops c hrun key hmono
    rw [hiter, List.map_map, List.pairwise_map]
    exact hs

theorem Iter_order_witness :
    run (NewCache ([100].map WithMaxSizeBytes)) partlySortedOps = .ok partlySortedCache ∧
      ¬ MonotoneCursors partlySortedOps ∧
      Iter partlySortedCache [97] =
        (partlySortedCache.items.filter (fun i => decide (i.key = [97]))).map item.pair ∧
      Iter partlySortedCache [97] <:+
        ((added partlySortedOps).filter (fun i => decide (i.key = [97]))).map item.pair ∧
      (((added partlySortedOps).filter (fun i => decide (i.key = [97]))).map
        item.cur).Pairwise (fun a b => a < b) ∧
      ((Iter partlySortedCache [97]).map Prod.fst).Pairwise (fun a b => a < b) :=
  ⟨by decide, by decide,
    (Iter_order [100] partlySortedOps partlySortedCache (by decide) [97]).1,
    (Iter_order [100] partlySortedOps partlySortedCache (by decide) [97]).2.1,
    by decide,
    (Iter_order [100] partlySortedOps partlySortedCache (by decide) [97]).2.2 (by decide)⟩

/-- C8: on a reachable cache with global chain `G`, `Resize(maxBytes)` with
`maxBytes >= 0` returns, the ceiling is then `maxBytes`, and the global chain is
`G` without its first `k` records, where `k` is the least number for which the
footprints of the remaining records sum to at most `maxBytes`; `k` is 0 when
`Size()` was within `maxBytes` already. -/
theorem Resize_keeps_fitting_suffix (c : Cache) (h : Reachable c) (maxBytes : Int)
    (hnn : 0 ≤ maxBytes) :
    ∃ k c', k ≤ c.items.length ∧ Resize c maxBytes = .ok c' ∧ c'.maxSize = maxBytes ∧
      c'.items = c.items.drop k ∧
      sumFootprint (c.items.drop k) ≤ maxBytes ∧
      (∀ j, j < k → maxBytes < sumFootprint (c.items.drop j)) ∧
      (Size c ≤ maxBytes → k = 0) := by
  obtain ⟨k, c', hk, hres, hit, hmax, _, hle, hmin⟩ := Resize_ok c h.inv maxBytes hnn
  refine ⟨k, c', hk, hres, hmax, hit, hle, hmin, ?_⟩
  intro hsize
  by_contra hk0
  have := hmin 0 (Nat.pos_of_ne_zero hk0)
  rw [List.drop_zero, ← h.inv.2.1] at this
  unfold Size at hsize
  omega

theorem Resize_keeps_fitting_suffix_witness :
    Reachable testCache ∧ (0 : Int) ≤ 72 ∧
      ∃ k c', k ≤ testCache.items.length ∧ Resize testCache 72 = .ok c' ∧
        c'.maxSize = 72 ∧ c'.items = testCache.items.drop k ∧
        sumFootprint (testCache.items.drop k) ≤ 72 ∧
        (∀ j, j < k → 72 < sumFootprint (testCache.items.drop j)) ∧
        (Size testCache ≤ 72 → k = 0) :=
  ⟨⟨[108], testOps, by decide⟩, by decide,
    Resize_keeps_fitting_suffix testCache ⟨[108], testOps, by decide⟩ 72 (by decide)⟩

/-- C9: on a reachable cache `Resize(0)` returns and leaves `Len() == 0`,
`Size() == 0` and an index without keys, so that `Iter` is empty for every
key. -/
theorem Resize_zero_drains (c : Cache) (h : Reachable c) :
    ∃ c', Resize c 0 = .ok c' ∧ Len c' = 0 ∧ Size c' = 0 ∧ c'.vals = [] ∧
      ∀ k, Iter c' k = [] := by
  obtain ⟨k, c', _, hres, hit, _, hinv', hle, _⟩ := Resize_ok c h.inv 0 (le_refl 0)
  have hnil : c'.items = [] := by
    by_contra hne
    have := sumFootprint_pos_of_ne_nil c'.items hne
    rw [hit] at this
    omega
  have hvals : c'.vals = [] := by
    apply Index.eq_nil_of_get_none
    intro k'
    rw [hinv'.1 k', hnil]
    simp [chain]
  refine ⟨c', hres, ?_, ?_, hvals, ?_⟩
  · simp [Len, hnil]
  · unfold Size
    rw [hinv'.2.1, hnil]
    rfl
  · intro k'
    simp [Iter, hvals, Index.get]

theorem Resize_zero_drains_witness :
    Reachable testCache ∧
      ∃ c', Resize testCache 0 = .ok c' ∧ Len c' = 0 ∧ Size c' = 0 ∧ c'.vals = [] ∧
        ∀ k, Iter c' k = [] :=
  ⟨⟨[108], testOps, by decide⟩, Resize_zero_drains testCache ⟨[108], testOps, by decide⟩⟩

/-- C10: on a cache reached from `NewCache`, the global chain holds the newest
of the records added, oldest first; `First()` returns the cursor and value of
its first record and `Last()` those of its last record; when it is empty both
return cursor 0 and the empty value. -/
theorem First_Last_boundaries (sizes : List Int) (ops : List Op) (c : Cache)
    (hrun : run (NewCache (sizes.map WithMaxSizeBytes)) ops = .ok c) :
    c.items <:+ added ops ∧
    (∀ i rest, c.items = i :: rest → First c = (i.cur, i.val)) ∧
    (∀ front i, c.items = front ++ [i] → Last c = (i.cur, i.val)) ∧
    (Len c = 0 → First c = (0, []) ∧ Last c = (0, [])) := by
  refine ⟨run_items_suffix sizes ops c hrun, ?_, ?_, ?_⟩
  · intro i rest hi
    simp [First, hi]
  · intro front i hi
    simp [Last, hi]
  · intro hlen
    have hnil : c.items = [] := List.length_eq_zero.mp hlen
    simp [First, Last, hnil]

theorem First_Last_boundaries_witness :
    (run (NewCache ([108].map WithMaxSizeBytes)) testOps = .ok testCache ∧
      testCache.items <:+ added testOps ∧
      First testCache = (2, testValue 50) ∧ Last testCache = (4, testValue 52)) ∧
    (run (NewCache ([].map WithMaxSizeBytes)) [] = .ok (NewCache []) ∧
      Len (NewCache []) = 0 ∧
      First (NewCache []) = (0, []) ∧ Last (NewCache []) = (0, [])) :=
  ⟨⟨by decide,
      (First_Last_boundaries [108] testOps testCache (by decide)).1,
      (First_Last_boundaries [108] testOps testCache (by decide)).2.1
        ⟨testKey, 2, testValue 50⟩
        [⟨testKey, 3, testValue 51⟩, ⟨testKey, 4, testValue 52⟩] rfl,
      (First_Last_boundaries [108] testOps testCache (by decide)).2.2.1
        [⟨testKey, 2, testValue 50⟩, ⟨testKey, 3, testValue 51⟩]
        ⟨testKey, 4, testValue 52⟩ rfl⟩,
    ⟨rfl, rfl,
      (First_Last_boundaries [] [] (NewCache []) rfl).2.2.2 rfl⟩⟩

/-! ## Further properties: the tail, `IterAfter` from zero, unknown keys -/

theorem scanBack_eq_nil (cur : Nat) (l : List item) (h : ∀ x ∈ l, cur < x.cur) :
    scanBack cur l = [] := by
  induction l with
  | nil => rfl
  | cons i l ih =>
    have hi : i.cur > cur := h i (List.mem_cons_self _ _)
    simp only [scanBack, hi, if_true]
    exact ih (fun x hx => h x (List.mem_cons_of_mem _ hx))

/-- When every cursor stored for the key is at least 1, `IterAfter(key, 0)`
yields what `Iter(key)` yields, on any cache. -/
theorem IterAfter_zero_of_pos (c : Cache) (key : Bytes)
    (h : ∀ p ∈ Iter c key, 1 ≤ p.1) : IterAfter c key 0 = Iter c key := by
  unfold IterAfter Iter at *
  cases hget : c.vals.get key with
  | none => rfl
  | some kl =>
    rw [hget] at h
    simp only at h ⊢
    have hall : ∀ x ∈ kl, 0 < x.cur := by
      intro x hx
      exact h x.pair (List.mem_map_of_mem _ hx)
    have hrev : ∀ x ∈ kl.reverse, 0 < x.cur := fun x hx => hall x (List.mem_reverse.mp hx)
    rw [scanBack_eq_nil 0 kl.reverse hrev]
    simp only
    congr 1
    rw [List.filter_eq_self]
    intro x hx
    simpa using hall x hx

/-- C11: when `Add(key, cur, val)` on a reachable cache returns, `Last()`
returns `(cur, val)`, the last pair that `Iter(key)` yields is `(cur, val)`,
`Len()` is at least 1, and the new global chain is the old one without some
front records followed by the new record: an `Add` does not evict the record
it inserts. -/
theorem Add_record_is_tail (c : Cache) (h : Reachable c) (key : Bytes) (cur : Nat)
    (val : Bytes) (c' : Cache) (hadd : Add c key cur val = .ok c') :
    Last c' = (cur, val) ∧ (Iter c' key).getLast? = some (cur, val) ∧ 1 ≤ Len c' ∧
      ∃ k, c'.items = c.items.drop k ++ [{ key := key, cur := cur, val := val }] := by
  by_cases hfit : footprint key val ≤ c.maxSize
  · obtain ⟨k, c1, _, hrun, hit, _, hinv1, _, _⟩ := Add_ok c h.inv key cur val hfit
    rw [hrun] at hadd
    simp only [Except.ok.injEq] at hadd
    subst hadd
    refine ⟨?_, ?_, ?_, k, hit⟩
    · simp [Last, hit]
    · rw [Iter_eq_chain c1 hinv1.1 key, hit, chain_append]
      simp [chain, item.pair]
    · simp [Len, hit]
  · rw [Add_panics c h.inv key cur val (by omega)] at hadd
    simp at hadd

theorem Add_record_is_tail_witness :
    Reachable testCache ∧ Add testCache testKey 5 (testValue 53) = .ok testCacheAdded ∧
      Last testCacheAdded = (5, testValue 53) ∧
      (Iter testCacheAdded testKey).getLast? = some (5, testValue 53) ∧
      1 ≤ Len testCacheAdded ∧
      ∃ k, testCacheAdded.items =
        testCache.items.drop k ++ [{ key := testKey, cur := 5, val := testValue 53 }] :=
  ⟨⟨[108], testOps, by decide⟩, by decide,
    Add_record_is_tail testCache ⟨[108], testOps, by decide⟩ testKey 5 (testValue 53)
      testCacheAdded (by decide)⟩

/-- C12: on a reachable cache, for a key whose records all have a cursor of at
least 1, in whatever order the cursors were added, `IterAfter(key, 0)` yields
the same sequence as `Iter(key)`. -/
theorem IterAfter_zero_is_Iter (c : Cache) (h : Reachable c) (key : Bytes)
    (hpos : ∀ i ∈ c.items, i.key = key → 1 ≤ i.cur) :
    IterAfter c key 0 = Iter c key := by
  apply IterAfter_zero_of_pos
  intro p hp
  rw [Iter_eq_chain c h.inv.1 key] at hp
  obtain ⟨i, hi, rfl⟩ := List.mem_map.mp hp
  have hmem := List.mem_filter.mp hi
  exact hpos i hmem.1 (chain_key c.items key i hi)

theorem IterAfter_zero_is_Iter_witness :
    Reachable unsortedCache ∧
      (∀ i ∈ unsortedCache.items, i.key = [107] → 1 ≤ i.cur) ∧
      IterAfter unsortedCache [107] 0 = Iter unsortedCache [107] :=
  ⟨⟨[100], unsortedOps, by decide⟩, by decide,
    IterAfter_zero_is_Iter unsortedCache ⟨[100], unsortedOps, by decide⟩ [107]
      (by decide)⟩

/-- C13: on a reachable cache, for a key under which the global chain holds no
record, `Iter(key)` and `IterAfter(key, cur)` yield the empty sequence, for
every `cur`. -/
theorem unknown_key_empty (c : Cache) (h : Reachable c) (key : Bytes)
    (habsent : ∀ i ∈ c.items, i.key ≠ key) (cur : Nat) :
    Iter c key = [] ∧ IterAfter c key cur = [] := by
  have hnil : chain c.items key = [] := by
    rw [chain, List.filter_eq_nil_iff]
    intro i hi
    simpa using habsent i hi
  have hget : c.vals.get key = none := by
    rw [h.inv.1 key]
    simp [hnil]
  simp [Iter, IterAfter, hget]

theorem unknown_key_empty_witness :
    Reachable testCache ∧ (∀ i ∈ testCache.items, i.key ≠ [116]) ∧
      Iter testCache [116] = [] ∧ IterAfter testCache [116] 2 = [] :=
  ⟨⟨[108], testOps, by decide⟩, by decide,
    unknown_key_empty testCache ⟨[108], testOps, by decide⟩ [116] (by decide) 2⟩

/-! ## The calls to `evict` made by a loop -/

/-- Every cache on which the loop calls `evict` has a consistent index, when
the loop starts on one. -/
theorem evictCalls_consistent (n : Nat) (c : Cache) (hc : Consistent c) :
    ∀ s ∈ evictCalls n c, Consistent s := by
  induction n generalizing c with
  | zero => simp [evictCalls]
  | succ n ih =>
    intro s hs
    unfold evictCalls at hs
    by_cases hgt : c.size > c.maxSize
    · simp only [hgt, if_true, List.mem_cons] at hs
      rcases hs with rfl | hs
      · exact hc
      · cases hi : c.items with
        | nil => simp [evict, hi] at hs
        | cons i rest =>
          obtain ⟨c1, hev, _, _, _, hc1⟩ := evict_cons c i rest hc hi
          rw [hev] at hs
          exact ih c1 hc1 s hs
    · simp [hgt] at hs

/-- When the part `d` of the byte total that is not in the global chain fits
the ceiling, the loop never calls `evict` on an empty global chain. -/
theorem evictCalls_nonempty (n : Nat) (c : Cache) (d : Int) (hc : Consistent c)
    (hsize : c.size = sumFootprint c.items + d) (hd : d ≤ c.maxSize) :
    ∀ s ∈ evictCalls n c, s.items ≠ [] := by
  induction n generalizing c with
  | zero => simp [evictCalls]
  | succ n ih =>
    intro s hs
    unfold evictCalls at hs
    by_cases hgt : c.size > c.maxSize
    · cases hi : c.items with
      | nil =>
        rw [hi, sumFootprint_nil] at hsize
        omega
      | cons i rest =>
        simp only [hgt, if_true, List.mem_cons] at hs
        rcases hs with rfl | hs
        · simp [hi]
        · obtain ⟨c1, hev, hitems, hsz, hmax, hc1⟩ := evict_cons c i rest hc hi
          rw [hev] at hs
          have hsize1 : c1.size = sumFootprint c1.items + d := by
            rw [hsz, hitems, hsize, hi, sumFootprint_cons]
            ring
          exact ih c1 hc1 hsize1 (by rw [hmax]; exact hd) s hs
    · simp [hgt] at hs

/-- On a consistent cache with a non-empty global chain, the key of the head
record has an entry in the index whose chain starts with that record. -/
theorem head_entry (s : Cache) (hs : Consistent s) (hne : s.items ≠ []) :
    ∃ i rest kl, s.items = i :: rest ∧ s.vals.get i.key = some (i :: kl) := by
  cases hi : s.items with
  | nil => exact absurd hi hne
  | cons i rest =>
    refine ⟨i, rest, chain rest i.key, rfl, ?_⟩
    have := hs i.key
    rw [hi, chain_cons_self] at this
    simpa using this

/-- When the part `d` of the byte total that is not in the global chain exceeds
the ceiling, the loop calls `evict` once for every record, front first, and
once more on the empty chain. -/
theorem evictCalls_all (n : Nat) (c : Cache) (d : Int) (hc : Consistent c)
    (hsize : c.size = sumFootprint c.items + d) (hd : c.maxSize < d)
    (hn : c.items.length < n) :
    (evictCalls n c).map Cache.items =
      (List.range (c.items.length + 1)).map (fun j => c.items.drop j) := by
  induction n generalizing c with
  | zero => omega
  | succ n ih =>
    have hgt : c.size > c.maxSize := by
      have := sumFootprint_nonneg c.items
      omega
    unfold evictCalls
    simp only [hgt, if_true]
    cases hi : c.items with
    | nil => simp [evict, hi]
    | cons i rest =>
      obtain ⟨c1, hev, hitems, hsz, hmax, hc1⟩ := evict_cons c i rest hc hi
      have hsize1 : c1.size = sumFootprint c1.items + d := by
        rw [hsz, hitems, hsize, hi, sumFootprint_cons]
        ring
      have hn1 : c1.items.length < n := by
        rw [hitems]
        rw [hi] at hn
        simp at hn
        omega
      have := ih c1 hc1 hsize1 (by rw [hmax]; exact hd) hn1
      rw [hev]
      simp only [List.map_cons, this, hitems, hi, List.length_cons]
      rw [List.range_succ_eq_map (rest.length + 1)]
      simp [Function.comp_def]

/-- C17: on a reachable cache, `Add` of a record whose footprint is at most the
ceiling returns; its eviction loop stops for every loop bound above the length
of the global chain; and every cache on which the loop calls `evict` has a
non-empty global chain whose head record has, under its key, an index entry
with a non-empty chain that starts with that same record. -/
theorem Add_safe_when_fits (c : Cache) (h : Reachable c) (key : Bytes) (cur : Nat)
    (val : Bytes) (hfit : footprint key val ≤ c.maxSize) :
    (∃ c', Add c key cur val = .ok c') ∧
    (∀ n, c.items.length < n →
      ∃ c1, evictLoop n { c with size := c.size + footprint key val } = .ok c1) ∧
    (∀ s ∈ evictCalls (c.items.length + 1) { c with size := c.size + footprint key val },
      ∃ i rest kl, s.items = i :: rest ∧ s.vals.get i.key = some (i :: kl)) := by
  obtain ⟨hc, hsize, _⟩ := h.inv
  refine ⟨?_, ?_, ?_⟩
  · obtain ⟨k, c', _, hadd, _⟩ := Add_ok c h.inv key cur val hfit
    exact ⟨c', hadd⟩
  · intro n hn
    obtain ⟨k, c1, _, hrun, _⟩ :=
      evictLoop_ok n { c with size := c.size + footprint key val }
        (footprint key val) hc (by simp [hsize]) hfit hn
    exact ⟨c1, hrun⟩
  · intro s hs
    have hcs := evictCalls_consistent _ { c with size := c.size + footprint key val } hc s hs
    have hne := evictCalls_nonempty _ { c with size := c.size + footprint key val }
      (footprint key val) hc (by simp [hsize]) hfit s hs
    exact head_entry s hcs hne

theorem Add_safe_when_fits_witness :
    Reachable mixedCache ∧
      footprint [97] [5, 6, 7, 8, 9, 10, 11] ≤ mixedCache.maxSize ∧
      (∃ c', Add mixedCache [97] 3 [5, 6, 7, 8, 9, 10, 11] = .ok c') ∧
      (∀ n, mixedCache.items.length < n →
        ∃ c1, evictLoop n
          { mixedCache with
            size := mixedCache.size + footprint [97] [5, 6, 7, 8, 9, 10, 11] } = .ok c1) ∧
      (∀ s ∈ evictCalls (mixedCache.items.length + 1)
          { mixedCache with
            size := mixedCache.size + footprint [97] [5, 6, 7, 8, 9, 10, 11] },
        ∃ i rest kl, s.items = i :: rest ∧ s.vals.get i.key = some (i :: kl)) :=
  ⟨⟨[60], mixedOps, by decide⟩, by decide,
    Add_safe_when_fits mixedCache ⟨[60], mixedOps, by decide⟩ [97] 3
      [5, 6, 7, 8, 9, 10, 11] (by decide)⟩

/-- C18: on a reachable cache `Resize(maxBytes)` returns when `maxBytes >= 0`;
when `maxBytes < 0` it does not return: the loop calls `evict` on the global
chain, then on the chain without its first record, and so on through every
record, and at last on the empty chain, where nil is dereferenced. -/
theorem Resize_fails_iff_negative (c : Cache) (h : Reachable c) (maxBytes : Int) :
    (0 ≤ maxBytes → ∃ c', Resize c maxBytes = .ok c' ∧ c'.maxSize = maxBytes) ∧
    (maxBytes < 0 →
      Resize c maxBytes = .error .nilDeref ∧
      (evictCalls (c.items.length + 1) { c with maxSize := maxBytes }).map Cache.items =
        (List.range (c.items.length + 1)).map (fun j => c.items.drop j)) := by
  obtain ⟨hc, hsize, _⟩ := h.inv
  refine ⟨?_, ?_⟩
  · intro hnn
    obtain ⟨k, c', _, hres, _, hmax, _⟩ := Resize_ok c h.inv maxBytes hnn
    exact ⟨c', hres, hmax⟩
  · intro hneg
    refine ⟨Resize_panics c h.inv maxBytes hneg, ?_⟩
    exact evictCalls_all (c.items.length + 1) { c with maxSize := maxBytes } 0 hc
      (by simp [hsize]) hneg (by simp)

theorem Resize_fails_iff_negative_witness :
    Reachable testCache ∧
      ((0 : Int) ≤ 72 ∧ ∃ c', Resize testCache 72 = .ok c' ∧ c'.maxSize = 72) ∧
      ((-1 : Int) < 0 ∧
        Resize testCache (-1) = .error .nilDeref ∧
        (evictCalls (testCache.items.length + 1)
            { testCache with maxSize := -1 }).map Cache.items =
          (List.range (testCache.items.length + 1)).map
            (fun j => testCache.items.drop j)) :=
  ⟨⟨[108], testOps, by decide⟩,
    ⟨by decide,
      (Resize_fails_iff_negative testCache ⟨[108], testOps, by decide⟩ 72).1 (by decide)⟩,
    ⟨by decide,
      (Resize_fails_iff_negative testCache ⟨[108], testOps, by decide⟩ (-1)).2
        (by decide)⟩⟩

/-! ## The keys of the index -/

theorem Index.mem_keys_iff (m : Index) (k : Bytes) :
    k ∈ m.keys ↔ ∃ kl, m.get k = some kl := by
  induction m with
  | nil => simp [Index.keys, Index.get]
  | cons e m ih =>
    obtain ⟨k0, kl0⟩ := e
    by_cases h0 : k0 = k
    · subst h0
      simp [Index.keys, Index.get]
    · have hne : ¬ k = k0 := fun h => h0 h.symm
      simp only [Index.keys, List.map_cons, List.mem_cons, Index.get, h0, if_false, hne,
        false_or]
      exact ih

theorem Index.keys_set (m : Index) (k : Bytes) (kl : List item) :
    (m.set k kl).keys = if k ∈ m.keys then m.keys else m.keys ++ [k] := by
  induction m with
  | nil => simp [Index.set, Index.keys]
  | cons e m ih =>
    obtain ⟨k0, kl0⟩ := e
    by_cases h0 : k0 = k
    · subst h0
      simp [Index.set, Index.keys]
    · have hne : ¬ k = k0 := fun h => h0 h.symm
      simp only [Index.keys] at ih
      simp only [Index.set, h0, if_false, Index.keys, List.map_cons, List.mem_cons, hne,
        false_or, ih]
      split <;> simp

theorem Index.keys_delete (m : Index) (k : Bytes) :
    (m.delete k).keys = m.keys.filter (fun k' => decide (k' ≠ k)) := by
  induction m with
  | nil => simp [Index.delete, Index.keys]
  | cons e m ih =>
    obtain ⟨k0, kl0⟩ := e
    simp only [Index.keys] at ih
    by_cases h0 : k0 = k
    · simp [Index.delete, Index.keys, h0, ih]
    · simp [Index.delete, Index.keys, h0, ih]

theorem Index.nodup_set (m : Index) (k : Bytes) (kl : List item) (h : m.keys.Nodup) :
    (m.set k kl).keys.Nodup := by
  rw [Index.keys_set]
  split
  · exact h
  · rename_i hk
    rw [List.nodup_append]
    refine ⟨h, List.nodup_singleton k, ?_⟩
    intro a ha hb
    rw [List.mem_singleton] at hb
    subst hb
    exact hk ha

theorem Index.nodup_delete (m : Index) (k : Bytes) (h : m.keys.Nodup) :
    (m.delete k).keys.Nodup := by
  rw [Index.keys_delete]
  exact h.filter _

theorem Index.get_of_mem (m : Index) (h : m.keys.Nodup) (k : Bytes) (kl : List item)
    (hmem : (k, kl) ∈ m) : m.get k = some kl := by
  induction m with
  | nil => simp at hmem
  | cons e m ih =>
    obtain ⟨k0, kl0⟩ := e
    simp only [Index.keys, List.map_cons, List.nodup_cons] at h
    rcases List.mem_cons.mp hmem with heq | hmem'
    · simp only [Prod.mk.injEq] at heq
      obtain ⟨rfl, rfl⟩ := heq
      simp [Index.get]
    · have hk : k0 ≠ k := by
        rintro rfl
        exact h.1 (List.mem_map_of_mem Prod.fst hmem')
      simp only [Index.get, hk, if_false]
      exact ih h.2 hmem'

theorem evict_nodup (c c' : Cache) (h : evict c = .ok c') (hn : c.vals.keys.Nodup) :
    c'.vals.keys.Nodup := by
  unfold evict at h
  split at h
  · simp at h
  · split at h
    · simp at h
    · split at h
      · simp only [Except.ok.injEq] at h
        subst h
        exact Index.nodup_delete _ _ hn
      · split at h
        · simp at h
        · simp only [Except.ok.injEq] at h
          subst h
          exact Index.nodup_set _ _ _ hn

theorem evictLoop_nodup (n : Nat) (c c' : Cache) (h : evictLoop n c = .ok c')
    (hn : c.vals.keys.Nodup) : c'.vals.keys.Nodup := by
  induction n generalizing c with
  | zero =>
    unfold evictLoop at h
    split at h
    · simp at h
    · simp only [Except.ok.injEq] at h
      subst h
      exact hn
  | succ n ih =>
    unfold evictLoop at h
    split at h
    · cases hev : evict c with
      | error e => simp [hev] at h
      | ok c1 =>
        rw [hev] at h
        exact ih c1 h (evict_nodup c c1 hev hn)
    · simp only [Except.ok.injEq] at h
      subst h
      exact hn

theorem step_nodup (c c' : Cache) (op : Op) (h : step c op = .ok c')
    (hn : c.vals.keys.Nodup) : c'.vals.keys.Nodup := by
  cases op with
  | add key cur val =>
    simp only [step, Add] at h
    split at h
    · simp at h
    · rename_i c1 hloop
      simp only [Except.ok.injEq] at h
      subst h
      exact Index.nodup_set _ _ _ (evictLoop_nodup _ _ c1 hloop hn)
  | resize maxBytes =>
    simp only [step, Resize] at h
    exact evictLoop_nodup _ _ c' h hn

theorem run_nodup (c c' : Cache) (ops : List Op) (h : run c ops = .ok c')
    (hn : c.vals.keys.Nodup) : c'.vals.keys.Nodup := by
  induction ops generalizing c with
  | nil =>
    simp only [run, Except.ok.injEq] at h
    subst h
    exact hn
  | cons op ops ih =>
    simp only [run] at h
    cases hs : step c op with
    | error e => simp [hs] at h
    | ok c1 =>
      rw [hs] at h
      exact ih c1 h (step_nodup c c1 op hs hn)

/-- In a reachable cache every key has at most one entry in the index. -/
theorem Reachable.nodupKeys {c : Cache} (h : Reachable c) : c.vals.keys.Nodup := by
  obtain ⟨sizes, ops, hrun⟩ := h
  refine run_nodup _ c ops hrun ?_
  have := (NewCache_fold sizes
    { items := [], maxSize := DefaultMaxSizeBytes, size := 0, vals := [] }
    (by simp [DefaultMaxSizeBytes])).2.2.1
  unfold NewCache
  rw [this]
  simp [Index.keys]

theorem run_append (c : Cache) (ops ops' : List Op) :
    run c (ops ++ ops') =
      match run c ops with
      | .ok c1 => run c1 ops'
      | .error e => .error e := by
  induction ops generalizing c with
  | nil => simp [run]
  | cons op ops ih =>
    simp only [List.cons_append, run]
    cases hs : step c op with
    | error e => rfl
    | ok c1 => exact ih c1

/-- A call that returns on a reachable cache leads to a reachable cache. -/
theorem Reachable.step {c c' : Cache} (h : Reachable c) (op : Op)
    (hs : mvfifo.step c op = .ok c') : Reachable c' := by
  obtain ⟨sizes, ops, hrun⟩ := h
  refine ⟨sizes, ops ++ [op], ?_⟩
  rw [run_append, hrun]
  simp [run, hs]

/-! ## Entries of the index, `Len`, construction -/

theorem chain_ne_nil_iff (items : List item) (k : Bytes) :
    chain items k ≠ [] ↔ ∃ i ∈ items, i.key = k := by
  rw [chain, Ne, List.filter_eq_nil_iff]
  simp

theorem Consistent.get_isSome_iff {c : Cache} (hc : Consistent c) (k : Bytes) :
    (∃ kl, c.vals.get k = some kl) ↔ ∃ i ∈ c.items, i.key = k := by
  rw [← chain_ne_nil_iff, hc k]
  by_cases hnil : chain c.items k = []
  · simp [hnil]
  · simp [hnil]

/-- On a consistent cache with global chain `i :: rest`, `evict` removes the
entry of exactly one key, and only when the record it evicts is the last one of
that key: a key loses its entry if and only if it is the key of `i` and no
record of `rest` has it. -/
theorem evict_removes_entry (c : Cache) (hc : Consistent c) (i : item) (rest : List item)
    (hi : c.items = i :: rest) :
    ∃ c', evict c = .ok c' ∧ c'.items = rest ∧
      ∀ k, ((∃ kl, c.vals.get k = some kl) ∧ c'.vals.get k = none) ↔
        (k = i.key ∧ ∀ x ∈ rest, x.key ≠ k) := by
  obtain ⟨c', hev, hitems, _, _, hc'⟩ := evict_cons c i rest hc hi
  refine ⟨c', hev, hitems, ?_⟩
  intro k
  have hnone : c'.vals.get k = none ↔ ∀ x ∈ rest, x.key ≠ k := by
    rw [hc' k, hitems]
    by_cases hnil : chain rest k = []
    · simp only [hnil, if_true, true_iff]
      rw [chain, List.filter_eq_nil_iff] at hnil
      intro x hx
      simpa using hnil x hx
    · simp only [hnil, if_false, reduceCtorEq, false_iff]
      obtain ⟨x, hx, hk⟩ := (chain_ne_nil_iff rest k).mp hnil
      intro hall
      exact hall x hx hk
  rw [hnone, hc.get_isSome_iff k, hi]
  constructor
  · rintro ⟨⟨x, hx, hk⟩, hall⟩
    refine ⟨?_, hall⟩
    rcases List.mem_cons.mp hx with rfl | hx'
    · exact hk.symm
    · exact absurd hk (hall x hx')
  · rintro ⟨rfl, hall⟩
    exact ⟨⟨i, List.mem_cons_self _ _, rfl⟩, hall⟩

/-- C14: in a reachable cache a key has an entry in the index if and only if
the global chain holds a record with that key, and every chain stored in the
index is non-empty. An entry goes away exactly through the eviction of the last
record of its key: `evict`, whatever the byte total and the ceiling, removes
the entry of a key if and only if that key is the key of the head record and no
other record has it; and across a call that returns, a key that had an entry
has none afterwards if and only if none of its records is left. -/
theorem no_empty_chains (c : Cache) (h : Reachable c) :
    (∀ k, (∃ kl, c.vals.get k = some kl) ↔ ∃ i ∈ c.items, i.key = k) ∧
    (∀ k kl, (k, kl) ∈ c.vals → kl ≠ []) ∧
    (∀ (sz mx : Int) (i : item) (rest : List item), c.items = i :: rest →
      ∃ c', evict { c with size := sz, maxSize := mx } = .ok c' ∧ c'.items = rest ∧
        ∀ k, ((∃ kl, c.vals.get k = some kl) ∧ c'.vals.get k = none) ↔
          (k = i.key ∧ ∀ x ∈ rest, x.key ≠ k)) ∧
    (∀ op c', step c op = .ok c' → ∀ k, (∃ kl, c.vals.get k = some kl) →
      (c'.vals.get k = none ↔ ∀ x ∈ c'.items, x.key ≠ k)) := by
  have hc := h.inv.1
  refine ⟨hc.get_isSome_iff, ?_, ?_, ?_⟩
  · intro k kl hmem hnil
    have hget := Index.get_of_mem c.vals h.nodupKeys k kl hmem
    rw [hc k] at hget
    by_cases hch : chain c.items k = []
    · simp [hch] at hget
    · simp only [hch, if_false, Option.some.injEq] at hget
      exact hch (hget.trans hnil)
  · intro sz mx i rest hi
    exact evict_removes_entry { c with size := sz, maxSize := mx } hc i rest hi
  · intro op c' hs k _
    have hc' := (h.step op hs).inv.1
    constructor
    · intro hnone x hx hk
      have := (hc'.get_isSome_iff k).mpr ⟨x, hx, hk⟩
      rw [hnone] at this
      simp at this
    · intro hall
      cases hget : c'.vals.get k with
      | none => rfl
      | some kl =>
        obtain ⟨x, hx, hk⟩ := (hc'.get_isSome_iff k).mp ⟨kl, hget⟩
        exact absurd hk (hall x hx)

theorem no_empty_chains_witness :
    Reachable mixedCache ∧
    ((∀ k, (∃ kl, mixedCache.vals.get k = some kl) ↔ ∃ i ∈ mixedCache.items, i.key = k) ∧
    (∀ k kl, (k, kl) ∈ mixedCache.vals → kl ≠ []) ∧
    (∀ (sz mx : Int) (i : item) (rest : List item), mixedCache.items = i :: rest →
      ∃ c', evict { mixedCache with size := sz, maxSize := mx } = .ok c' ∧
        c'.items = rest ∧
        ∀ k, ((∃ kl, mixedCache.vals.get k = some kl) ∧ c'.vals.get k = none) ↔
          (k = i.key ∧ ∀ x ∈ rest, x.key ≠ k)) ∧
    (∀ op c', step mixedCache op = .ok c' → ∀ k,
      (∃ kl, mixedCache.vals.get k = some kl) →
      (c'.vals.get k = none ↔ ∀ x ∈ c'.items, x.key ≠ k))) :=
  ⟨⟨[60], mixedOps, by decide⟩, no_empty_chains mixedCache ⟨[60], mixedOps, by decide⟩⟩

theorem length_filter_or (l : List item) (p q : item → Bool)
    (hd : ∀ x ∈ l, ¬ (p x = true ∧ q x = true)) :
    (l.filter (fun x => p x || q x)).length = (l.filter p).length + (l.filter q).length := by
  induction l with
  | nil => rfl
  | cons x l ih =>
    have hx := hd x (List.mem_cons_self _ _)
    have ih' := ih (fun y hy => hd y (List.mem_cons_of_mem _ hy))
    cases hp : p x <;> cases hq : q x
    · simp [List.filter_cons, hp, hq, ih']
    · simp [List.filter_cons, hp, hq, ih']
      omega
    · simp [List.filter_cons, hp, hq, ih']
      omega
    · exact absurd ⟨hp, hq⟩ hx

/-- Over distinct keys, the lengths of the key chains add up to the number of
records that have one of the keys. -/
theorem sum_chain_length (ks : List Bytes) (hn : ks.Nodup) (items : List item) :
    (ks.map (fun k => (chain items k).length)).sum =
      (items.filter (fun i => decide (i.key ∈ ks))).length := by
  induction ks with
  | nil => simp
  | cons k ks ih =>
    rw [List.nodup_cons] at hn
    have hsplit := length_filter_or items (fun i => decide (i.key = k))
      (fun i => decide (i.key ∈ ks)) (by
        intro x _ hx
        simp only [decide_eq_true_eq] at hx
        exact hn.1 (hx.1 ▸ hx.2))
    simp only [List.map_cons, List.sum_cons, ih hn.2]
    have hfun : (fun i : item => decide (i.key ∈ k :: ks)) =
        (fun i : item => decide (i.key = k) || decide (i.key ∈ ks)) := by
      funext i
      simp [List.mem_cons]
    rw [hfun, hsplit]
    rfl

/-- C15: in a reachable cache `Len()` is the number of records in the global
chain, the index has one entry per key, and `Len()` is the sum of the lengths
of the chains stored in the index. -/
theorem Len_invariant (c : Cache) (h : Reachable c) :
    Len c = c.items.length ∧ c.vals.keys.Nodup ∧
      Len c = (c.vals.map (fun e => e.2.length)).sum := by
  have hc := h.inv.1
  have hn := h.nodupKeys
  refine ⟨rfl, hn, ?_⟩
  have hentry : ∀ e ∈ c.vals, e.2.length = (chain c.items e.1).length := by
    intro e he
    obtain ⟨k, kl⟩ := e
    have hget := Index.get_of_mem c.vals hn k kl he
    rw [hc k] at hget
    by_cases hch : chain c.items k = []
    · simp [hch] at hget
    · simp only [hch, if_false, Option.some.injEq] at hget
      simp [hget]
  have hall : c.items.filter (fun i => decide (i.key ∈ c.vals.keys)) = c.items := by
    rw [List.filter_eq_self]
    intro i hi
    simp only [decide_eq_true_eq]
    exact (Index.mem_keys_iff c.vals i.key).mpr ((hc.get_isSome_iff i.key).mpr ⟨i, hi, rfl⟩)
  have hsum := sum_chain_length c.vals.keys hn c.items
  rw [hall] at hsum
  rw [List.map_congr_left hentry]
  unfold Len
  rw [← hsum]
  simp [Index.keys, List.map_map, Function.comp_def]

theorem Len_invariant_witness :
    Reachable mixedCache ∧ Len mixedCache = mixedCache.items.length ∧
      mixedCache.vals.keys.Nodup ∧
      Len mixedCache = (mixedCache.vals.map (fun e => e.2.length)).sum :=
  ⟨⟨[60], mixedOps, by decide⟩, Len_invariant mixedCache ⟨[60], mixedOps, by decide⟩⟩

/-- C16: `NewCache()` is an empty cache (`Len() == 0`, `Size() == 0`, no key in
the index) with the ceiling 256 MiB = 268435456; `NewCache(WithMaxSizeBytes(n))`
is an empty cache with the ceiling `max(0, n)`, which is not negative, for every
integer `n`. -/
theorem NewCache_construction (n : Int) :
    (Len (NewCache []) = 0 ∧ Size (NewCache []) = 0 ∧ (NewCache []).vals = [] ∧
      (∀ k, Iter (NewCache []) k = []) ∧
      (NewCache []).maxSize = DefaultMaxSizeBytes ∧ DefaultMaxSizeBytes = 268435456) ∧
    (Len (NewCache [WithMaxSizeBytes n]) = 0 ∧ Size (NewCache [WithMaxSizeBytes n]) = 0 ∧
      (NewCache [WithMaxSizeBytes n]).vals = [] ∧
      (∀ k, Iter (NewCache [WithMaxSizeBytes n]) k = []) ∧
      (NewCache [WithMaxSizeBytes n]).maxSize = max 0 n ∧
      0 ≤ (NewCache [WithMaxSizeBytes n]).maxSize) := by
  refine ⟨⟨rfl, rfl, rfl, fun _ => rfl, rfl, by decide⟩, rfl, rfl, rfl, fun _ => rfl, rfl, ?_⟩
  simp [NewCache, WithMaxSizeBytes]

/-! ## `IterAfter` on a chain in any order -/

/-- The backward loop steps over the longest run, from the back, of records
with a cursor above `cur`, and stops on a record with a cursor at most `cur`. -/
theorem scanBack_split (cur : Nat) (l : List item) :
    l = l.takeWhile (fun i => decide (i.cur > cur)) ++ scanBack cur l ∧
      ∀ e rest, scanBack cur l = e :: rest → e.cur ≤ cur := by
  induction l with
  | nil => simp [scanBack]
  | cons i l ih =>
    by_cases hi : i.cur > cur
    · simp only [scanBack, hi, if_true, List.takeWhile_cons, decide_True, List.cons_append]
      exact ⟨by rw [← ih.1], ih.2⟩
    · refine ⟨by simp [scanBack, hi, List.takeWhile_cons], ?_⟩
      intro e rest he
      simp only [scanBack, hi, if_false, List.cons.injEq] at he
      obtain ⟨rfl, _⟩ := he
      omega

theorem takeWhile_append_stop (p : item → Bool) (l₁ l₂ : List item) (a : item)
    (h₁ : ∀ x ∈ l₁, p x = true) (ha : p a = false) :
    (l₁ ++ a :: l₂).takeWhile p = l₁ := by
  induction l₁ with
  | nil => simp [List.takeWhile_cons, ha]
  | cons x l₁ ih =>
    have hx := h₁ x (List.mem_cons_self _ _)
    simp only [List.cons_append, List.takeWhile_cons, hx, if_true, List.cons.injEq, true_and]
    exact ih (fun y hy => h₁ y (List.mem_cons_of_mem _ hy))

theorem afterLastAtMost_mem (cur : Nat) (kl : List item) :
    ∀ x ∈ afterLastAtMost cur kl, cur < x.cur := by
  intro x hx
  unfold afterLastAtMost at hx
  have := List.mem_takeWhile_imp (List.mem_reverse.mp hx)
  simpa using this

theorem afterLastAtMost_all (cur : Nat) (kl : List item) (h : ∀ x ∈ kl, cur < x.cur) :
    afterLastAtMost cur kl = kl := by
  unfold afterLastAtMost
  have : kl.reverse.takeWhile (fun i => decide (i.cur > cur)) = kl.reverse := by
    rw [List.takeWhile_eq_self_iff]
    intro x hx
    simpa using h x (List.mem_reverse.mp hx)
  rw [this, List.reverse_reverse]

theorem afterLastAtMost_split (cur : Nat) (front post : List item) (e : item)
    (he : e.cur ≤ cur) (hpost : ∀ x ∈ post, cur < x.cur) :
    afterLastAtMost cur (front ++ e :: post) = post := by
  unfold afterLastAtMost
  have hrev : (front ++ e :: post).reverse = post.reverse ++ e :: front.reverse := by simp
  rw [hrev, takeWhile_append_stop _ post.reverse front.reverse e ?_ ?_, List.reverse_reverse]
  · intro x hx
    simpa using hpost x (List.mem_reverse.mp hx)
  · simp
    omega

theorem afterLastAtMost_suffix (cur : Nat) (kl : List item) :
    afterLastAtMost cur kl <:+ kl := by
  unfold afterLastAtMost
  have h := List.takeWhile_prefix (fun i : item => decide (i.cur > cur)) (l := kl.reverse)
  have := List.reverse_suffix.mpr h
  simpa using this

/-- The two loops of `IterAfter` select, on any chain, the records after the
last position whose cursor is at most `cur`. -/
theorem iterAfter_start (kl : List item) (cur : Nat) :
    (match scanBack cur kl.reverse with
      | [] => kl
      | _ :: _ => kl.drop ((scanBack cur kl.reverse).length - 1)).filter
        (fun i => decide (i.cur > cur)) =
      afterLastAtMost cur kl := by
  obtain ⟨hsplit, hstop⟩ := scanBack_split cur kl.reverse
  have hover : ∀ x ∈ kl.reverse.takeWhile (fun i => decide (i.cur > cur)), cur < x.cur := by
    intro x hx
    simpa using List.mem_takeWhile_imp hx
  cases hsb : scanBack cur kl.reverse with
  | nil =>
    rw [hsb, List.append_nil] at hsplit
    have hall : ∀ x ∈ kl, cur < x.cur := by
      intro x hx
      have hx' : x ∈ kl.reverse := List.mem_reverse.mpr hx
      rw [hsplit] at hx'
      exact hover x hx'
    simp only
    rw [afterLastAtMost_all cur kl hall, List.filter_eq_self]
    intro x hx
    simpa using hall x hx
  | cons e before =>
    have he := hstop e before hsb
    rw [hsb] at hsplit
    have hkl : kl = before.reverse ++
        (e :: (kl.reverse.takeWhile (fun i => decide (i.cur > cur))).reverse) := by
      have := congrArg List.reverse hsplit
      simpa using this
    have hdrop : kl.drop ((e :: before).length - 1) =
        e :: (kl.reverse.takeWhile (fun i => decide (i.cur > cur))).reverse := by
      have hlen : (e :: before).length - 1 = before.reverse.length := by simp
      rw [hlen]
      nth_rewrite 1 [hkl]
      rw [List.drop_left]
    simp only [hdrop]
    have hne : ¬ e.cur > cur := by omega
    rw [List.filter_cons]
    simp only [hne, decide_False, Bool.false_eq_true, if_false]
    rw [List.filter_eq_self.mpr]
    · rfl
    · intro x hx
      simpa using hover x (List.mem_reverse.mp hx)

theorem IterAfter_eq_afterLast (c : Cache) (hc : Consistent c) (key : Bytes) (cur : Nat) :
    IterAfter c key cur = (afterLastAtMost cur (chain c.items key)).map item.pair := by
  unfold IterAfter
  rw [hc key]
  by_cases hnil : chain c.items key = []
  · simp [hnil, afterLastAtMost]
  · simp only [hnil, if_false]
    rw [iterAfter_start]

/-- C19: on a reachable cache, with or without increasing cursors,
`IterAfter(key, cur)` yields, in chain order, the records of the key's chain
that lie after the last position whose cursor is at most `cur` (all of them
have a cursor above `cur`; it is the whole chain when no cursor is at most
`cur`). So what it yields is a subsequence of the pairs of `Iter(key)` with a
cursor above `cur`; and for the cursors 5, 1, 3 added in this order and
`cur = 2` it yields only the cursor 3, while 5 qualifies too. -/
theorem IterAfter_any_order (c : Cache) (h : Reachable c) (key : Bytes) (cur : Nat) :
    IterAfter c key cur = (afterLastAtMost cur (chain c.items key)).map item.pair ∧
    (∀ x ∈ afterLastAtMost cur (chain c.items key), cur < x.cur) ∧
    ((∀ x ∈ chain c.items key, cur < x.cur) →
      afterLastAtMost cur (chain c.items key) = chain c.items key) ∧
    (∀ front e post, chain c.items key = front ++ e :: post → e.cur ≤ cur →
      (∀ x ∈ post, cur < x.cur) → afterLastAtMost cur (chain c.items key) = post) ∧
    (IterAfter c key cur).Sublist ((Iter c key).filter (fun p => decide (p.1 > cur))) ∧
    (Reachable unsortedCache ∧ IterAfter unsortedCache [107] 2 = [(3, [3])] ∧
      (Iter unsortedCache [107]).filter (fun p => decide (p.1 > 2)) =
        [(5, [1]), (3, [3])]) := by
  have hc := h.inv.1
  have hiter := IterAfter_eq_afterLast c hc key cur
  refine ⟨hiter, afterLastAtMost_mem cur _, afterLastAtMost_all cur _, ?_, ?_,
    ⟨[100], unsortedOps, by decide⟩, by decide, by decide⟩
  · intro front e post hsplit he hpost
    rw [hsplit]
    exact afterLastAtMost_split cur front post e he hpost
  · rw [hiter, Iter_eq_chain c hc key, List.filter_map]
    apply List.Sublist.map
    have hself : afterLastAtMost cur (chain c.items key) =
        (afterLastAtMost cur (chain c.items key)).filter
          ((fun p : Nat × Bytes => decide (p.1 > cur)) ∘ item.pair) := by
      rw [List.filter_eq_self.mpr]
      intro x hx
      simpa [item.pair] using afterLastAtMost_mem cur _ x hx
    rw [hself]
    exact List.Sublist.filter _ (afterLastAtMost_suffix cur _).sublist

theorem IterAfter_any_order_witness :
    Reachable unsortedCache ∧
      IterAfter unsortedCache [107] 2 =
        (afterLastAtMost 2 (chain unsortedCache.items [107])).map item.pair ∧
      (IterAfter unsortedCache [107] 2).Sublist
        ((Iter unsortedCache [107]).filter (fun p => decide (p.1 > 2))) :=
  ⟨⟨[100], unsortedOps, by decide⟩,
    (IterAfter_any_order unsortedCache ⟨[100], unsortedOps, by decide⟩ [107] 2).1,
    (IterAfter_any_order unsortedCache ⟨[100], unsortedOps, by decide⟩ [107] 2).2.2.2.2.1⟩

/-! ## Iterators and their consumers -/

theorem forEach_collectAll (kl : List item) (s : List (Nat × Bytes)) :
    forEach collectAll kl s = s ++ kl.map item.pair := by
  induction kl generalizing s with
  | nil => simp [forEach]
  | cons i kl ih =>
    simp only [forEach, collectAll]
    rw [ih]
    simp [item.pair]

theorem forEach_stopAfterFirst (kl : List item) (s : List (Nat × Bytes)) :
    forEach stopAfterFirst kl s = s ++ (kl.map item.pair).take 1 := by
  cases kl with
  | nil => simp [forEach]
  | cons i kl => simp [forEach, stopAfterFirst, item.pair]

theorem forEachAfter_collectAll (cur : Nat) (l : List item) (s : List (Nat × Bytes)) :
    forEachAfter cur collectAll l s =
      s ++ (l.filter (fun i => decide (i.cur > cur))).map item.pair := by
  induction l generalizing s with
  | nil => simp [forEachAfter]
  | cons i l ih =>
    by_cases hi : i.cur > cur
    · simp only [forEachAfter, hi, if_true, collectAll]
      rw [ih]
      simp [List.filter_cons, hi, item.pair]
    · simp only [forEachAfter, hi, if_false]
      rw [ih]
      simp [List.filter_cons, hi]

theorem forEachAfter_stopAfterFirst (cur : Nat) (l : List item) (s : List (Nat × Bytes)) :
    forEachAfter cur stopAfterFirst l s =
      s ++ ((l.filter (fun i => decide (i.cur > cur))).map item.pair).take 1 := by
  induction l generalizing s with
  | nil => simp [forEachAfter]
  | cons i l ih =>
    by_cases hi : i.cur > cur
    · simp [forEachAfter, hi, stopAfterFirst, List.filter_cons, item.pair]
    · simp only [forEachAfter, hi, if_false]
      rw [ih]
      simp [List.filter_cons, hi]

/-- The sequence `Iter` is what the iterator function hands to a consumer that
never stops; neither changes the cache. -/
theorem IterWith_collectAll (c : Cache) (key : Bytes) :
    IterWith c key collectAll [] = (Iter c key, c) := by
  unfold IterWith Iter
  cases c.vals.get key with
  | none => rfl
  | some kl => simp [forEach_collectAll]

theorem IterAfterWith_collectAll (c : Cache) (key : Bytes) (cur : Nat) :
    IterAfterWith c key cur collectAll [] = (IterAfter c key cur, c) := by
  unfold IterAfterWith IterAfter
  cases c.vals.get key with
  | none => rfl
  | some kl => simp [forEachAfter_collectAll]

theorem IterWith_stopAfterFirst (c : Cache) (key : Bytes) :
    IterWith c key stopAfterFirst [] = ((Iter c key).take 1, c) := by
  unfold IterWith Iter
  cases c.vals.get key with
  | none => rfl
  | some kl => simp [forEach_stopAfterFirst]

theorem IterAfterWith_stopAfterFirst (c : Cache) (key : Bytes) (cur : Nat) :
    IterAfterWith c key cur stopAfterFirst [] = ((IterAfter c key cur).take 1, c) := by
  unfold IterAfterWith IterAfter
  cases c.vals.get key with
  | none => rfl
  | some kl => simp [forEachAfter_stopAfterFirst]

theorem take_one_eq_singleton_iff (l : List (Nat × Bytes)) (p : Nat × Bytes) :
    l.take 1 = [p] ↔ l.head? = some p := by
  cases l with
  | nil => simp
  | cons a l => simp

/-- The records after the last position with a cursor at most `cur` are none
exactly when the chain is empty or its last record has a cursor at most
`cur`. -/
theorem afterLastAtMost_ne_nil_iff (cur : Nat) (kl : List item) :
    afterLastAtMost cur kl ≠ [] ↔ ∃ i, kl.getLast? = some i ∧ cur < i.cur := by
  unfold afterLastAtMost
  rw [List.getLast?_eq_head?_reverse]
  cases kl.reverse with
  | nil => simp
  | cons a l =>
    by_cases ha : a.cur > cur
    · simp [List.takeWhile_cons, ha]
    · simp [List.takeWhile_cons, ha]

/-- C20 (at the failing input): on the reachable cache whose only record has
the cursor 0, the key has a live record and yet `IterAfter(key, 0)` hands
nothing to a consumer that stops after the first element. -/
theorem early_stop_zero_cursor :
    Reachable zeroCursorCache ∧ (∃ i ∈ zeroCursorCache.items, i.key = [107]) ∧
      (IterAfterWith zeroCursorCache [107] 0 stopAfterFirst []).1 = [] ∧
      ¬ ((IterAfterWith zeroCursorCache [107] 0 stopAfterFirst []).1.length = 1) :=
  ⟨⟨[100], [.add [107] 0 [118]], by decide⟩, ⟨⟨[107], 0, [118]⟩, by decide, rfl⟩,
    by decide, by decide⟩

/-- C20 (amended): on a reachable cache and for a key with a live record, a
consumer that stops after the first element is handed exactly one pair by
`Iter(key)`, the first of its sequence; by `IterAfter(key, 0)` it is handed the
first pair of that sequence, which is exactly one pair if and only if the newest
record of the key has a cursor of at least 1. Either run leaves the cache as it
was, and a full `Iter(key)` afterwards yields the same sequence as before. -/
theorem early_termination (c : Cache) (h : Reachable c) (key : Bytes)
    (hlive : ∃ i ∈ c.items, i.key = key) :
    (∃ p, (IterWith c key stopAfterFirst []).1 = [p] ∧ (Iter c key).head? = some p) ∧
    (IterWith c key stopAfterFirst []).2 = c ∧
    (IterAfterWith c key 0 stopAfterFirst []).1 = (IterAfter c key 0).take 1 ∧
    (IterAfterWith c key 0 stopAfterFirst []).2 = c ∧
    ((∃ p, (IterAfterWith c key 0 stopAfterFirst []).1 = [p] ∧
        (IterAfter c key 0).head? = some p) ↔
      ∃ i, (chain c.items key).getLast? = some i ∧ 1 ≤ i.cur) ∧
    (IterWith (IterWith c key stopAfterFirst []).2 key collectAll []).1 = Iter c key ∧
    (IterWith (IterAfterWith c key 0 stopAfterFirst []).2 key collectAll []).1 =
      Iter c key := by
  have hc := h.inv.1
  have hne : Iter c key ≠ [] := by
    rw [Iter_eq_chain c hc key]
    intro hmap
    exact (chain_ne_nil_iff c.items key).mpr hlive (List.map_eq_nil_iff.mp hmap)
  refine ⟨?_, ?_, ?_, ?_, ?_, ?_, ?_⟩
  · rw [IterWith_stopAfterFirst]
    cases hit : Iter c key with
    | nil => exact absurd hit hne
    | cons p l => exact ⟨p, by simp, by simp⟩
  · rw [IterWith_stopAfterFirst]
  · rw [IterAfterWith_stopAfterFirst]
  · rw [IterAfterWith_stopAfterFirst]
  · rw [IterAfterWith_stopAfterFirst]
    have hiff := afterLastAtMost_ne_nil_iff 0 (chain c.items key)
    have hafter := IterAfter_eq_afterLast c hc key 0
    constructor
    · rintro ⟨p, _, hhead⟩
      apply hiff.mp
      intro hnil
      rw [hafter, hnil] at hhead
      simp at hhead
    · intro hlast
      have hne' := hiff.mpr hlast
      cases hit : IterAfter c key 0 with
      | nil =>
        rw [hafter] at hit
        exact absurd (List.map_eq_nil_iff.mp hit) hne'
      | cons p l => exact ⟨p, by simp, by simp⟩
  · rw [IterWith_stopAfterFirst, IterWith_collectAll]
  · rw [IterAfterWith_stopAfterFirst, IterWith_collectAll]

theorem early_termination_witness :
    Reachable testCache ∧ (∃ i ∈ testCache.items, i.key = testKey) ∧
      (∃ p, (IterWith testCache testKey stopAfterFirst []).1 = [p] ∧
        (Iter testCache testKey).head? = some p) ∧
      (IterWith testCache testKey stopAfterFirst []).2 = testCache ∧
      (IterAfterWith testCache testKey 0 stopAfterFirst []).1 =
        (IterAfter testCache testKey 0).take 1 ∧
      (IterAfterWith testCache testKey 0 stopAfterFirst []).2 = testCache ∧
      ((∃ p, (IterAfterWith testCache testKey 0 stopAfterFirst []).1 = [p] ∧
          (IterAfter testCache testKey 0).head? = some p) ↔
        ∃ i, (chain testCache.items testKey).getLast? = some i ∧ 1 ≤ i.cur) ∧
      (IterWith (IterWith testCache testKey stopAfterFirst []).2 testKey collectAll []).1 =
        Iter testCache testKey ∧
      (IterWith (IterAfterWith testCache testKey 0 stopAfterFirst []).2 testKey
          collectAll []).1 = Iter testCache testKey :=
  ⟨⟨[108], testOps, by decide⟩, ⟨⟨testKey, 2, testValue 50⟩, by decide, rfl⟩,
    early_termination testCache ⟨[108], testOps, by decide⟩ testKey
      ⟨⟨testKey, 2, testValue 50⟩, by decide, rfl⟩⟩

end mvfifo
